import Mathlib

set_option maxHeartbeats 1000000
set_option maxRecDepth 4096

/-!
Verification development for the `ad-generator` repository.

The repository consists of a single Next.js route handler
(`src/app/api/generate-product-image/route.ts`) that orchestrates a
creative-generation pipeline: user lookup, job-record creation in a document
store, asset normalization (`urlToInlineData`), two generation-model calls
whose first response is parsed as JSON (`extractJson`), an image-host upload
and a final record update, with a catch-all that deletes the job record.

This file shallowly embeds that program:
  * JS strings are modelled as `List Char`; `String.prototype.trim`,
    `String.prototype.replace` (first occurrence only), `includes`,
    `toLowerCase`, `startsWith` and `endsWith` are given faithful models.
  * `JSON.parse` is modelled by a fuel-indexed recursive-descent parser
    `pRun`/`jsonParse` over the JSON grammar (objects keep their fields as an
    ordered association list, numbers keep their lexeme; `\uXXXX` escapes
    denoting unpaired surrogate halves are mapped to `Char.ofNat`'s default,
    the one place where Lean's scalar-value `Char` cannot copy UTF-16).
  * The effectful handler `POST` is embedded as a function of an environment
    `Env` that supplies the responses of the three collaborators (document
    store query, image host, generation model, `fetch`), returning the
    response together with the ordered list of side effects performed.
-/

namespace AdGen

/-- JS strings are modelled as lists of characters. -/
abbrev Str := List Char

/-- Coerce a Lean string literal to the model's string type. -/
def chars (x : String) : Str := x.data

/-- The whitespace characters of the JSON grammar (RFC 8259 `ws`). -/
def isJsonWs (c : Char) : Bool :=
  c = ' ' || c = '\t' || c = '\n' || c = '\r'

/-- Skip JSON whitespace, as `JSON.parse` does between tokens. -/
def skipWs (cs : Str) : Str := cs.dropWhile isJsonWs

/-- The WhiteSpace/LineTerminator set stripped by `String.prototype.trim`. -/
def isTrimWs (c : Char) : Bool :=
  c = ' ' || c = '\t' || c = '\n' || c = '\r' || c = '\x0b' || c = '\x0c' ||
  c = '\u00A0' || c = '\u1680' || c = '\u2000' || c = '\u2001' ||
  c = '\u2002' || c = '\u2003' || c = '\u2004' || c = '\u2005' ||
  c = '\u2006' || c = '\u2007' || c = '\u2008' || c = '\u2009' ||
  c = '\u200A' || c = '\u2028' || c = '\u2029' || c = '\u202F' ||
  c = '\u205F' || c = '\u3000' || c = '\uFEFF'

/-- Left half of `String.prototype.trim`. -/
def trimL (cs : Str) : Str := cs.dropWhile isTrimWs

/-- Right half of `String.prototype.trim`. -/
def trimR (cs : Str) : Str := (cs.reverse.dropWhile isTrimWs).reverse

/-- Model of `String.prototype.trim`. -/
def trim (cs : Str) : Str := trimR (trimL cs)

/-- Model of `String.prototype.replace` with a string pattern: replaces only
the first occurrence (this is what `textOutput.replace("```json", "")` does in
the source, unlike `replaceAll`). -/
def replaceFirst (pat repl : Str) : Str → Str
  | [] => if pat.isEmpty then repl else []
  | c :: cs =>
    if pat.isPrefixOf (c :: cs) then repl ++ (c :: cs).drop pat.length
    else c :: replaceFirst pat repl cs

/-- Model of `String.prototype.includes`: does `pat` occur in the string? -/
def occursB (pat : Str) : Str → Bool
  | [] => pat.isEmpty
  | c :: cs => pat.isPrefixOf (c :: cs) || occursB pat cs

/-- Model of `String.prototype.toLowerCase` (ASCII range, which is all the
source's extension comparisons use). -/
def toLowerStr (cs : Str) : Str := cs.map Char.toLower

/-- Model of the JS regex `/\{[\s\S]*\}/` used by `extractJson`: the match, if
any, runs from the first `\x7b` that has some `\x7d` after it (which, when the
regex matches at all, is the first `\x7b` of the string preceding the last
`\x7d`) to the last `\x7d` of the string (greedy `[\s\S]*`). -/
def firstIdxOf (c : Char) : Str → Option Nat
  | [] => none
  | x :: xs => if x = c then some 0 else (firstIdxOf c xs).map (· + 1)

/-- Model of the JS regex match `/\{[\s\S]*\}/` as used by `extractJson`. -/
def extractJsonSub (cs : Str) : Option Str :=
  match firstIdxOf '{' cs, firstIdxOf '}' cs.reverse with
  | some i, some jr =>
    let j := cs.length - 1 - jr
    if i < j then some ((cs.drop i).take (j - i + 1)) else none
  | _, _ => none

/-- The base64 alphabet (RFC 4648), used to model `Buffer.toString("base64")`. -/
def b64Alphabet : Str :=
  chars "ABCDEFGHIJKLMNOPQRSTUVWXYZabcdefghijklmnopqrstuvwxyz0123456789+/"

/-- The `n`-th base64 digit. -/
def b64Char (n : Nat) : Char := b64Alphabet.getD n 'A'

/-- Model of `Buffer.from(bytes).toString("base64")`; bytes are `Nat`s below
256 (reduced mod 256 where it matters). -/
def base64Encode : List Nat → Str
  | [] => []
  | [a] =>
    let a := a % 256
    [b64Char (a / 4), b64Char (a % 4 * 16), '=', '=']
  | [a, b] =>
    let a := a % 256
    let b := b % 256
    [b64Char (a / 4), b64Char (a % 4 * 16 + b / 16), b64Char (b % 16 * 4), '=']
  | a :: b :: c :: rest =>
    let a' := a % 256
    let b' := b % 256
    let c' := c % 256
    b64Char (a' / 4) :: b64Char (a' % 4 * 16 + b' / 16) ::
      b64Char (b' % 16 * 4 + c' / 64) :: b64Char (c' % 64) :: base64Encode rest

/-- Model of `Number.prototype.toString` on a timestamp (`Date.now().toString()`). -/
def natToStr (n : Nat) : Str := (toString n).data

/-! ## A model of `JSON.parse`

Parsed values: objects keep their members as an ordered association list (so
a parsed value determines the JS object built by `JSON.parse`, with repeated
names resolved by the later member), and numbers keep their source lexeme. -/

inductive Json where
  | jnull : Json
  | jbool : Bool → Json
  | jnum : Str → Json
  | jstr : Str → Json
  | jarr : List Json → Json
  | jobj : List (Str × Json) → Json

/-- Structural boolean equality of parsed values (the deriving handler does
not support the nested occurrences of `Json` under `List`). -/
def beqJson : Json → Json → Bool
  | .jnull, .jnull => true
  | .jbool a, .jbool b => a == b
  | .jnum a, .jnum b => a == b
  | .jstr a, .jstr b => a == b
  | .jarr xs, .jarr ys => beqL xs ys
  | .jobj xs, .jobj ys => beqF xs ys
  | _, _ => false
where
  beqL : List Json → List Json → Bool
    | [], [] => true
    | x :: xs, y :: ys => beqJson x y && beqL xs ys
    | _, _ => false
  beqF : List (Str × Json) → List (Str × Json) → Bool
    | [], [] => true
    | (k₁, v₁) :: xs, (k₂, v₂) :: ys => k₁ == k₂ && beqJson v₁ v₂ && beqF xs ys
    | _, _ => false

mutual

theorem beqJson_iff : ∀ a b, beqJson a b = true ↔ a = b
  | .jnull, .jnull => by simp [beqJson]
  | .jbool a, .jbool b => by simp [beqJson]
  | .jnum a, .jnum b => by simp [beqJson]
  | .jstr a, .jstr b => by simp [beqJson]
  | .jarr xs, .jarr ys => by simp [beqJson, beqL_iff xs ys]
  | .jobj xs, .jobj ys => by simp [beqJson, beqF_iff xs ys]
  | .jnull, .jbool _ | .jnull, .jnum _ | .jnull, .jstr _ | .jnull, .jarr _ | .jnull, .jobj _
  | .jbool _, .jnull | .jbool _, .jnum _ | .jbool _, .jstr _ | .jbool _, .jarr _ | .jbool _, .jobj _
  | .jnum _, .jnull | .jnum _, .jbool _ | .jnum _, .jstr _ | .jnum _, .jarr _ | .jnum _, .jobj _
  | .jstr _, .jnull | .jstr _, .jbool _ | .jstr _, .jnum _ | .jstr _, .jarr _ | .jstr _, .jobj _
  | .jarr _, .jnull | .jarr _, .jbool _ | .jarr _, .jnum _ | .jarr _, .jstr _ | .jarr _, .jobj _
  | .jobj _, .jnull | .jobj _, .jbool _ | .jobj _, .jnum _ | .jobj _, .jstr _ | .jobj _, .jarr _ =>
    by simp [beqJson]

theorem beqL_iff : ∀ xs ys, beqJson.beqL xs ys = true ↔ xs = ys
  | [], [] => by simp [beqJson.beqL]
  | x :: xs, y :: ys => by simp [beqJson.beqL, beqJson_iff x y, beqL_iff xs ys]
  | [], _ :: _ => by simp [beqJson.beqL]
  | _ :: _, [] => by simp [beqJson.beqL]

theorem beqF_iff : ∀ xs ys, beqJson.beqF xs ys = true ↔ xs = ys
  | [], [] => by simp [beqJson.beqF]
  | (k₁, v₁) :: xs, (k₂, v₂) :: ys => by
    simp [beqJson.beqF, beqJson_iff v₁ v₂, beqF_iff xs ys, and_assoc]
  | [], _ :: _ => by simp [beqJson.beqF]
  | _ :: _, [] => by simp [beqJson.beqF]

end

instance : DecidableEq Json := fun a b => decidable_of_iff _ (beqJson_iff a b)

/-- Value of a hexadecimal digit. -/
def hexVal (c : Char) : Option Nat :=
  if '0' ≤ c ∧ c ≤ '9' then some (c.toNat - '0'.toNat)
  else if 'a' ≤ c ∧ c ≤ 'f' then some (c.toNat - 'a'.toNat + 10)
  else if 'A' ≤ c ∧ c ≤ 'F' then some (c.toNat - 'A'.toNat + 10)
  else none

/-- The single-character JSON escapes. -/
def escChar (c : Char) : Option Char :=
  if c = '"' then some '"'
  else if c = '\\' then some '\\'
  else if c = '/' then some '/'
  else if c = 'b' then some '\x08'
  else if c = 'f' then some '\x0c'
  else if c = 'n' then some '\n'
  else if c = 'r' then some '\r'
  else if c = 't' then some '\t'
  else none

/-- Parse the body of a JSON string literal, the opening quote already
consumed; returns the decoded characters and the input after the closing
quote. Raw control characters are rejected, as in the JSON grammar. -/
def parseStrBody : Str → Option (Str × Str)
  | [] => none
  | c :: rest =>
    if c = '"' then some ([], rest)
    else if c = '\\' then
      match rest with
      | [] => none
      | e :: r =>
        if e = 'u' then
          match r with
          | h1 :: h2 :: h3 :: h4 :: r2 =>
            match hexVal h1, hexVal h2, hexVal h3, hexVal h4 with
            | some a, some b, some cv, some d =>
              match parseStrBody r2 with
              | some (s, r3) => some (Char.ofNat (a * 4096 + b * 256 + cv * 16 + d) :: s, r3)
              | none => none
            | _, _, _, _ => none
          | _ => none
        else
          match escChar e with
          | some c2 =>
            match parseStrBody r with
            | some (s, r3) => some (c2 :: s, r3)
            | none => none
          | none => none
    else if c.toNat < 32 then none
    else
      match parseStrBody rest with
      | some (s, r3) => some (c :: s, r3)
      | none => none

/-- Characters that can extend a number lexeme. -/
def isNumChar (c : Char) : Bool :=
  c.isDigit || c = '-' || c = '+' || c = '.' || c = 'e' || c = 'E'

/-- Consume the integer part of a JSON number (optional sign already
consumed): `0` or a nonzero digit followed by digits. -/
def numIntPart : Str → Option Str
  | [] => none
  | c :: rest =>
    if c = '0' then some rest
    else if c.isDigit then some (rest.dropWhile Char.isDigit)
    else none

/-- Consume an optional fraction part. -/
def numFracPart : Str → Option Str
  | [] => some []
  | c :: rest =>
    if c = '.' then
      if (rest.takeWhile Char.isDigit).isEmpty then none
      else some (rest.dropWhile Char.isDigit)
    else some (c :: rest)

/-- Check an optional exponent part that must span the whole rest. -/
def numExpPart : Str → Bool
  | [] => true
  | c :: rest =>
    if c = 'e' ∨ c = 'E' then
      let rest' :=
        match rest with
        | s :: r => if s = '+' ∨ s = '-' then r else s :: r
        | [] => []
      ¬(rest'.takeWhile Char.isDigit).isEmpty ∧ (rest'.dropWhile Char.isDigit).isEmpty
    else false

/-- Is the lexeme a number of the JSON grammar? -/
def validNum (cs : Str) : Bool :=
  let cs1 := match cs with
    | [] => []
    | c :: r => if c = '-' then r else c :: r
  match numIntPart cs1 with
  | none => false
  | some r1 =>
    match numFracPart r1 with
    | none => false
    | some r2 => numExpPart r2

/-- Parse (after optional whitespace) a string key followed by `:`; returns
the key and the input after the colon. -/
def parseKeyColon (cs : Str) : Option (Str × Str) :=
  match skipWs cs with
  | [] => none
  | c :: r =>
    if c = '"' then
      match parseStrBody r with
      | some (k, r2) =>
        match skipWs r2 with
        | [] => none
        | c2 :: r3 => if c2 = ':' then some (k, r3) else none
      | none => none
    else none

/-- Parser jobs: a value, the continuation of an object body (a `,` or `}`
expected next), or the continuation of an array body (`,` or `]`). -/
inductive PJob where
  | val (cs : Str)
  | mem (acc : List (Str × Json)) (cs : Str)
  | arr (acc : List Json) (cs : Str)

/-- The recursive-descent core of the `JSON.parse` model. `fuel` bounds the
depth of the call chain; every recursive call strictly consumes input, so
`cs.length + 1` is always enough fuel (and structural recursion on the fuel
keeps every equation definitional). -/
def pRun : Nat → PJob → Option (Json × Str)
  | 0, _ => none
  | Nat.succ f, PJob.val cs =>
    match skipWs cs with
    | [] => none
    | c :: r =>
      if c = '{' then
        match skipWs r with
        | [] => none
        | c2 :: r2 =>
          if c2 = '}' then some (Json.jobj [], r2)
          else
            match parseKeyColon r with
            | some (k, r3) =>
              match pRun f (PJob.val r3) with
              | some (v, r4) => pRun f (PJob.mem [(k, v)] r4)
              | none => none
            | none => none
      else if c = '[' then
        match skipWs r with
        | [] => none
        | c2 :: r2 =>
          if c2 = ']' then some (Json.jarr [], r2)
          else
            match pRun f (PJob.val r) with
            | some (v, r4) => pRun f (PJob.arr [v] r4)
            | none => none
      else if c = '"' then
        match parseStrBody r with
        | some (sv, r2) => some (Json.jstr sv, r2)
        | none => none
      else if c = 't' then
        if (chars "true").isPrefixOf (c :: r) then some (Json.jbool true, (c :: r).drop 4)
        else none
      else if c = 'f' then
        if (chars "false").isPrefixOf (c :: r) then some (Json.jbool false, (c :: r).drop 5)
        else none
      else if c = 'n' then
        if (chars "null").isPrefixOf (c :: r) then some (Json.jnull, (c :: r).drop 4)
        else none
      else
        let lex := (c :: r).takeWhile isNumChar
        if lex.isEmpty then none
        else if validNum lex then some (Json.jnum lex, (c :: r).dropWhile isNumChar)
        else none
  | Nat.succ f, PJob.mem acc cs =>
    match skipWs cs with
    | [] => none
    | c :: r =>
      if c = '}' then some (Json.jobj acc, r)
      else if c = ',' then
        match parseKeyColon r with
        | some (k, r3) =>
          match pRun f (PJob.val r3) with
          | some (v, r4) => pRun f (PJob.mem (acc ++ [(k, v)]) r4)
          | none => none
        | none => none
      else none
  | Nat.succ f, PJob.arr acc cs =>
    match skipWs cs with
    | [] => none
    | c :: r =>
      if c = ']' then some (Json.jarr acc, r)
      else if c = ',' then
        match pRun f (PJob.val r) with
        | some (v, r4) => pRun f (PJob.arr (acc ++ [v]) r4)
        | none => none
      else none

/-- Model of `JSON.parse`: parse one value, then require only whitespace to
remain; `none` models a thrown `SyntaxError`. -/
def jsonParse (cs : Str) : Option Json :=
  match pRun (cs.length + 1) (PJob.val cs) with
  | some (v, rest) => if (skipWs rest).isEmpty then some v else none
  | none => none

example : jsonParse (chars "\x7b\"a\":1\x7d") =
    some (Json.jobj [(chars "a", Json.jnum (chars "1"))]) := by decide

example : jsonParse (chars " \x7b \"a\" : [true, null, \"x\"] \x7d ") =
    some (Json.jobj [(chars "a",
      Json.jarr [Json.jbool true, Json.jnull, Json.jstr (chars "x")])]) := by decide

example : jsonParse (chars "\x7b\"a\":1\x7d tail") = none := by decide

example : jsonParse (chars "01") = none := by decide

example : jsonParse (chars "-1.5e-3") = some (Json.jnum (chars "-1.5e-3")) := by decide

example : jsonParse (chars "\"a\\nb\"") = some (Json.jstr (chars "a\nb")) := by decide

/-! ## The request pipeline

The handler's effects are interpreted against an environment `Env` that holds
the responses of the external collaborators; the handler model returns its
response together with the ordered list of side effects it performed. -/

/-- The plain-product instruction template (source constant `PROMPT`). -/
def PROMPT : String :=
  "\nCreate a high-quality creative featuring the uploaded product image as the main subject. \nAllow full flexibility—this creative may be a product showcase, marketing banner, 3D-style render, \necommerce listing image, premium ad visual, or AI SaaS-style creative depending on what fits best.\n\nPlace the product clearly in focus. You may use any of the following creative styles based on the product:\n- Modern ecommerce product display\n- Vibrant liquid splash / motion energy effects\n- Minimalistic premium brand layout\n- 3D glossy cinematic product render\n- Abstract futuristic AI-themed backdrop\n- Tech-style UI/UX elements (for AI/SaaS product branding)\n- Clean gradient or soft shadow background\n- Composition with floating ingredients, icons, or material elements\n\nYou can add subtle environmental elements, textures, particles, or lighting to amplify visual appeal.\nEnsure the final composition is sharp, well-lit, and polished with strong visual hierarchy.\n\nAlso return an \"image to video\" animation prompt to animate this same creative (movement, energy, environment, or 3D reveal).\n\nReturn STRICT JSON ONLY in the following format:\n\x7b\n  \"textToImage\": \"\",\n  \"imageToVideo\": \"\"\n\x7d\nDo not add any other text or comments.\n"

/-- The avatar+product instruction template (source constant `AVATAR_PROMPT`). -/
def AVATAR_PROMPT : String :=
  "\nCreate a high-quality creative featuring the uploaded avatar interacting naturally with the uploaded product image. \nThe avatar may hold, display, showcase, use, or present the product in a natural, realistic, or modern AI-styled scenario.\n\nAllow flexible creative interpretations, such as:\n- Professional ecommerce model photo\n- Lifestyle scene showcasing the product\n- Minimalistic clean background ad creative\n- Cinematic or stylized portrait with product in hand\n- AI SaaS-themed layout (for branding / influencer + product ads)\n- Futuristic tech wallpaper or holographic product display\n- Vibrant splash / energetic composition around both avatar & product\n- Floating icons, UI elements, or thematic materials based on the product\n\nEnsure the avatar remains natural, well-lit, sharp, and blended realistically with the product. \nMaintain clear focus on the product while preserving a professional and polished look.\n\nAlso provide an \"image to video\" animation prompt suitable for animating the same concept (motion, 3D parallax, liquid/spark effects, light motion, camera sway, or dynamic avatar+product movement).\n\nReturn STRICT JSON ONLY in the following format:\n\x7b\n  \"textToImage\": \"\",\n  \"imageToVideo\": \"\"\n\x7d\nDo not add any other text or comments.\n"

/-- An inline-data payload (base64 data plus MIME type) as sent to or
returned by the generation model. -/
structure InlinePart where
  data : Str
  mimeType : Str
deriving DecidableEq

/-- A `fetch` response as far as `urlToInlineData` consumes it. -/
structure FetchResponse where
  ok : Bool
  status : Nat
  contentType : Option Str
  body : List Nat
deriving DecidableEq

/-- Outcome of a `fetch` call: a network-level rejection or a response. -/
inductive FetchOutcome where
  | netError
  | resp (r : FetchResponse)

/-- Result of an `imagekit.upload` call. -/
structure UploadResult where
  url : Str
deriving DecidableEq

/-- A part of the second model call's response: it may carry text and/or
inline image data (`candidates[0].content.parts`). -/
structure GenPart where
  text : Option Str := none
  inlineData : Option InlinePart := none
deriving DecidableEq

/-- The exceptions the pipeline can raise. All of them are caught by the
handler's single catch-all; the constructors record which `throw` (or which
collaborator rejection) produced the error. -/
inductive PipeError where
  | typeError
  | uploadFailed
  | networkError
  | fetchFailed (status : Nat)
  | emptyContent
  | generateFailed
  | syntaxError
  | noJsonFound
  | noImageReturned
  | undefinedFieldValue
deriving DecidableEq

/-- Model of `urlToInlineData` (route.ts lines 76-100), the fetch already
performed and its outcome passed in. `!arrayBuffer` is always false for a
realized `ArrayBuffer`, so the guard reduces to the 20-byte minimum. -/
def urlToInlineData (fetched : FetchOutcome) (url : Str) : Except PipeError InlinePart :=
  match fetched with
  | .netError => .error .networkError
  | .resp res =>
    if !res.ok then .error (.fetchFailed res.status)
    else if res.body.length < 20 then .error .emptyContent
    else
      let base64 := base64Encode res.body
      let ct := res.contentType.getD []
      let mimeType :=
        if (chars "image/").isPrefixOf ct then ct
        else
          let lower := toLowerStr url
          if (chars ".jpg").isSuffixOf lower || (chars ".jpeg").isSuffixOf lower then
            chars "image/jpeg"
          else if (chars ".webp").isSuffixOf lower then chars "image/webp"
          else if (chars ".gif").isSuffixOf lower then chars "image/gif"
          else chars "image/png"
      .ok { data := base64, mimeType := mimeType }

/-- Model of `extractJson` (route.ts lines 102-110): direct `JSON.parse`,
else parse the regex match; `noJsonFound` is the explicit
`new Error("No JSON found in model output")`, `syntaxError` the `SyntaxError`
thrown by `JSON.parse` on an unparsable match. -/
def extractJson (text : Str) : Except PipeError Json :=
  match jsonParse text with
  | some v => Except.ok v
  | none =>
    match extractJsonSub text with
    | none => Except.error PipeError.noJsonFound
    | some m =>
      match jsonParse m with
      | some v => Except.ok v
      | none => Except.error PipeError.syntaxError

/-- Model of the response-parsing step (route.ts lines 192-194): trim the raw
text (`text?.trim() || ""`), strip the first occurrence of "```json" and then
of "```", trim again, and run `extractJson`. -/
def processModelText (raw : Option Str) : Except PipeError Json :=
  let t0 := match raw with
    | none => []
    | some s0 => trim s0
  let t1 := replaceFirst (chars "```json") [] t0
  let t2 := replaceFirst (chars "```") [] t1
  extractJson (trim t2)

/-- The `file` form field, when a file was attached. -/
structure FileData where
  bytes : List Nat
  ftype : Str
deriving DecidableEq

/-- The parsed multipart form submission. `none` models an absent field
(`formData.get` returns `null`). -/
structure Request where
  file : Option FileData
  description : Option Str
  size : Option Str
  userEmail : Option Str
  avatar : Option Str
  imageUrl : Option Str

/-- `avatar?.length > 2` (false when `avatar` is `null`). -/
def avatarUsable (req : Request) : Bool :=
  match req.avatar with
  | some a => 2 < a.length
  | none => false

/-- Truthiness of the `imageUrl` field: `!imageUrl` takes the file branch when
the field is absent or the empty string. -/
def imageUrlTruthy (req : Request) : Bool :=
  match req.imageUrl with
  | some u => !u.isEmpty
  | none => false

/-- `v?.k` on a parsed JSON value: a field of an object (the later of a
repeated name, as in a JS object literal), `undefined` (`none`) otherwise. -/
def jsonGetOpt (v : Json) (k : Str) : Option Json :=
  match v with
  | .jobj ms => (ms.reverse.find? (fun m => m.1 == k)).map (fun m => m.2)
  | _ => none

/-- The environment: what the collaborators (document store, image host,
generation model, `fetch`) answer during one run, and the values taken by the
three `Date.now()` calls. -/
structure Env where
  userDocs : List Unit
  fetch : Str → FetchOutcome
  productUpload : Except Unit UploadResult
  jsonGen : Except Unit (Option Str)
  imageGen : Except Unit (List GenPart)
  genUpload : Except Unit UploadResult
  nowDocId : Nat
  nowUpload1 : Nat
  nowUpload2 : Nat

/-- A part of a generation request: text (for the second call, the possibly
undefined `json?.textToImage`; for the first, the instruction template as a
string value) or inline image data. -/
inductive ReqPart where
  | ptext (v : Option Json)
  | pinline (d : InlinePart)
deriving DecidableEq

/-- The fields written by the intake `setDoc` (route.ts lines 128-134). -/
structure PendingRecord where
  userEmail : Option Str
  status : Str
  description : Option Str
  size : Option Str
  docId : Str
deriving DecidableEq

/-- The fields written by the success `updateDoc` (route.ts lines 231-236). -/
structure CompletedUpdate where
  finalProductImageUrl : Str
  productImageUrl : Str
  status : Str
  imageToVideoPrompt : Json
deriving DecidableEq

/-- The observable side effects of one run, in order. -/
inductive Effect where
  | queryUsers (email : Option Str)
  | createJob (id : Str) (pr : PendingRecord)
  | uploadImage (payload : Str) (fileName : Str)
  | fetchUrl (url : Str)
  | genContent (model : Str) (parts : List ReqPart)
  | updateJob (id : Str) (upd : CompletedUpdate)
  | deleteJob (id : Str)
deriving DecidableEq

/-- The asset-normalization block (route.ts lines 137-166): with a truthy
`imageUrl`, only a fetch, the URL itself becoming `productImageUrl`; otherwise
read the file (a `null` file throws a TypeError inside the try), upload the
base64 to the image host, and use the host URL. Returns `productImageUrl` and
the `productPart` sent to both model calls. -/
def normalizeAsset (env : Env) (req : Request) :
    Except PipeError (Str × InlinePart) × List Effect :=
  if imageUrlTruthy req then
    let url := req.imageUrl.getD []
    ((urlToInlineData (env.fetch url) url).map (fun part => (url, part)),
      [Effect.fetchUrl url])
  else
    match req.file with
    | none => (.error .typeError, [])
    | some f =>
      let uploadedBase64 := base64Encode f.bytes
      let uploadedMime := if f.ftype.isEmpty then chars "image/png" else f.ftype
      let fx := [Effect.uploadImage uploadedBase64 (natToStr env.nowUpload1 ++ chars ".png")]
      match env.productUpload with
      | .error _ => (.error .uploadFailed, fx)
      | .ok u => (.ok (u.url, { data := uploadedBase64, mimeType := uploadedMime }), fx)

/-- STEP 1 (route.ts lines 162-194): choose the instruction template, invoke
the first model call, and parse its text response. -/
def composePrompt (env : Env) (req : Request) (productPart : InlinePart) :
    Except PipeError Json × List Effect :=
  let jsonPrompt := if avatarUsable req then chars AVATAR_PROMPT else chars PROMPT
  let fx := [Effect.genContent (chars "gemini-2.0-flash")
    [ReqPart.ptext (some (.jstr jsonPrompt)), ReqPart.pinline productPart]]
  match env.jsonGen with
  | .error _ => (.error .generateFailed, fx)
  | .ok t => (processModelText t, fx)

/-- The search for an inline image part in the second response
(`contentParts.find(p => p.inlineData?.data)`). -/
def findInlineImage (parts : List GenPart) : Option InlinePart :=
  (parts.find? (fun p =>
    match p.inlineData with
    | some d => !d.data.isEmpty
    | none => false)).bind (fun p => p.inlineData)

/-- STEP 2 (route.ts lines 201-223): build the parts (fetching the avatar
image when usable), invoke the second model call, and take the first inline
image part's data. -/
def generateCreative (env : Env) (req : Request) (json : Json) (productPart : InlinePart) :
    Except PipeError Str × List Effect :=
  let baseParts := [ReqPart.ptext (jsonGetOpt json (chars "textToImage")),
    ReqPart.pinline productPart]
  let cont := fun (parts : List ReqPart) (fx0 : List Effect) =>
    let fx := fx0 ++ [Effect.genContent (chars "gemini-2.5-flash-image") parts]
    match env.imageGen with
    | .error _ => ((.error .generateFailed : Except PipeError Str), fx)
    | .ok respParts =>
      match findInlineImage respParts with
      | some d => (.ok d.data, fx)
      | none => (.error .noImageReturned, fx)
  if avatarUsable req then
    let av := req.avatar.getD []
    match urlToInlineData (env.fetch av) av with
    | .error e => (.error e, [Effect.fetchUrl av])
    | .ok avPart => cont (baseParts ++ [ReqPart.pinline avPart]) [Effect.fetchUrl av]
  else cont baseParts []

/-- The publishing block (route.ts lines 225-238): upload the generated image
as a data URL, then update the job record and return the host URL. Member
access `json.imageToVideo` on `null` throws a TypeError; Firestore's
`updateDoc` rejects an `undefined` field value ("Unsupported field value") —
both before the update is written. -/
def publishResult (env : Env) (docId : Str) (json : Json) (productImageUrl : Str)
    (generatedImage : Str) : Except PipeError Str × List Effect :=
  let fx := [Effect.uploadImage (chars "data:image/png;base64," ++ generatedImage)
      (chars "generate-" ++ natToStr env.nowUpload2 ++ chars ".png")]
  match env.genUpload with
  | .error _ => (.error .uploadFailed, fx)
  | .ok u =>
    match json with
    | .jnull => (.error .typeError, fx)
    | v =>
      match jsonGetOpt v (chars "imageToVideo") with
      | none => (.error .undefinedFieldValue, fx)
      | some itv =>
        (.ok u.url,
          fx ++ [Effect.updateJob docId
            { finalProductImageUrl := u.url, productImageUrl := productImageUrl,
              status := chars "completed", imageToVideoPrompt := itv }])

/-- The body of the try block (route.ts lines 136-238). -/
def runPipeline (env : Env) (req : Request) (docId : Str) :
    Except PipeError Str × List Effect :=
  match normalizeAsset env req with
  | (.error e, fx1) => (.error e, fx1)
  | (.ok (productImageUrl, productPart), fx1) =>
    match composePrompt env req productPart with
    | (.error e, fx2) => (.error e, fx1 ++ fx2)
    | (.ok json, fx2) =>
      match generateCreative env req json productPart with
      | (.error e, fx3) => (.error e, fx1 ++ fx2 ++ fx3)
      | (.ok generated, fx3) =>
        match publishResult env docId json productImageUrl generated with
        | (res, fx4) => (res, fx1 ++ fx2 ++ fx3 ++ fx4)

/-- A handler response: `NextResponse.json(body)` with its (default 200)
status code. -/
structure Resp where
  body : Json
  status : Nat
deriving DecidableEq

/-- The uniform failure payload `{error: "Please Try Again"}` (braces as in
the source object literal), returned with the default success status. -/
def uniformErrorResp : Resp :=
  { body := .jobj [(chars "error", .jstr (chars "Please Try Again"))], status := 200 }

/-- Model of the `POST` handler (route.ts lines 112-244). When the users query
returns no document, `querySnapshot.docs[0].data()` throws before the job
record is created and outside the try/catch: no response is produced
(`none`). Otherwise the record is created and the try block runs; on error the
catch deletes the record and returns the uniform payload. -/
def POST (env : Env) (req : Request) : Option Resp × List Effect :=
  let qfx := [Effect.queryUsers req.userEmail]
  if env.userDocs.isEmpty then
    (none, qfx)
  else
    let docId := natToStr env.nowDocId
    let createFx := Effect.createJob docId
      { userEmail := req.userEmail, status := chars "pending",
        description := req.description, size := req.size, docId := docId }
    match runPipeline env req docId with
    | (.ok url, fx) => (some { body := .jstr url, status := 200 }, qfx ++ createFx :: fx)
    | (.error _, fx) =>
      (some uniformErrorResp, qfx ++ createFx :: fx ++ [Effect.deleteJob docId])

/-! ## The document store, replayed from the effect list -/

/-- A document of the `user-ads` collection as this pipeline writes it. -/
structure StoredDoc where
  userEmail : Option Str
  status : Str
  description : Option Str
  size : Option Str
  docId : Str
  finalProductImageUrl : Option Str := none
  productImageUrl : Option Str := none
  imageToVideoPrompt : Option Json := none
deriving DecidableEq

/-- Interpret one effect against the `user-ads` collection: `setDoc` writes
the pending record, `updateDoc` merges the completion fields, `deleteDoc`
removes the document; other effects do not touch the store. -/
def applyEffect (store : List (Str × StoredDoc)) : Effect → List (Str × StoredDoc)
  | .createJob id pr =>
    store ++ [(id, { userEmail := pr.userEmail, status := pr.status,
                     description := pr.description, size := pr.size, docId := pr.docId })]
  | .updateJob id upd =>
    store.map (fun kv => if kv.1 == id then
      (kv.1, { kv.2 with
                 finalProductImageUrl := some upd.finalProductImageUrl,
                 productImageUrl := some upd.productImageUrl,
                 status := upd.status,
                 imageToVideoPrompt := some upd.imageToVideoPrompt }) else kv)
  | .deleteJob id => store.filter (fun kv => !(kv.1 == id))
  | _ => store

/-- The collection contents after a run's effects. -/
def runStore (fx : List Effect) : List (Str × StoredDoc) :=
  fx.foldl applyEffect []

/-- Look a document up by key. -/
def storeLookup (store : List (Str × StoredDoc)) (id : Str) : Option StoredDoc :=
  (store.find? (fun kv => kv.1 == id)).map (fun kv => kv.2)

/-- The store-touching effects of a run. -/
def isJobOp : Effect → Bool
  | .createJob _ _ => true
  | .updateJob _ _ => true
  | .deleteJob _ => true
  | _ => false

/-- Restriction of an effect list to store operations. -/
def jobOps (fx : List Effect) : List Effect := fx.filter isJobOp

/-! ## Concrete runs used by witnesses and sanity checks -/

/-- A submission carrying raw file bytes (25 bytes, a declared JPEG type). -/
def reqFile : Request :=
  { file := some { bytes := List.replicate 25 7, ftype := chars "image/jpeg" },
    description := some (chars "a bottle"), size := some (chars "1024x1024"),
    userEmail := some (chars "u@example.com"), avatar := none, imageUrl := none }

/-- A submission passing an existing image URL and a usable avatar URL. -/
def reqUrlAvatar : Request :=
  { file := none, description := none, size := none,
    userEmail := some (chars "u@example.com"),
    avatar := some (chars "https://cdn/av.png"),
    imageUrl := some (chars "https://cdn/prod.webp") }

/-- A fetch oracle answering every URL with a healthy 30-byte image response
without a content-type header. -/
def goodFetch : Str → FetchOutcome := fun _ =>
  .resp { ok := true, status := 200, contentType := none, body := List.replicate 30 1 }

/-- An environment for a fully successful run. -/
def envOk : Env :=
  { userDocs := [()], fetch := goodFetch,
    productUpload := .ok { url := chars "https://ik/p.png" },
    jsonGen := .ok (some (chars "\x7b\"textToImage\":\"T\",\"imageToVideo\":\"V\"\x7d")),
    imageGen := .ok [{ inlineData := some { data := chars "GENDATA", mimeType := chars "image/png" } }],
    genUpload := .ok { url := chars "https://ik/g.png" },
    nowDocId := 17, nowUpload1 := 18, nowUpload2 := 19 }

example : (POST envOk reqFile).1 = some { body := .jstr (chars "https://ik/g.png"), status := 200 } := by
  rfl

example :
    storeLookup (runStore (POST envOk reqFile).2) (chars "17") =
      some { userEmail := some (chars "u@example.com"), status := chars "completed",
             description := some (chars "a bottle"), size := some (chars "1024x1024"),
             docId := chars "17",
             finalProductImageUrl := some (chars "https://ik/g.png"),
             productImageUrl := some (chars "https://ik/p.png"),
             imageToVideoPrompt := some (.jstr (chars "V")) } := by
  rfl

example : (POST envOk reqUrlAvatar).1 = some { body := .jstr (chars "https://ik/g.png"), status := 200 } := by
  rfl

/-- An environment whose first model call rejects, failing the pipeline. -/
def envGenFail : Env :=
  { envOk with jsonGen := .error () }

example : (POST envGenFail reqFile).1 = some uniformErrorResp := by rfl

/-- An environment with no matching user document. -/
def envNoUser : Env :=
  { envOk with userDocs := [] }

/-- An environment whose fetch returns a successful but 5-byte response. -/
def envTinyBody : Env :=
  { envOk with fetch := fun _ =>
      FetchOutcome.resp { ok := true, status := 200, contentType := none, body := List.replicate 5 1 } }

/-! ## C10 — missing user document: throw before the job record exists -/

/-- C10: when the users query matches no document, the handler throws while
reading the missing user document, before any job record is created: the
only effect is the query itself, the store is unchanged, and the uniform
error payload is not returned (the exception is outside the try/catch). -/
theorem claimC10 (env : Env) (req : Request) (h : env.userDocs = []) :
    POST env req = (none, [Effect.queryUsers req.userEmail]) ∧
    runStore (POST env req).2 = [] ∧
    jobOps (POST env req).2 = [] ∧
    (POST env req).1 ≠ some uniformErrorResp := by
  have hempty : env.userDocs.isEmpty = true := by simp [h]
  refine ⟨?_, ?_, ?_, ?_⟩ <;>
    simp [POST, hempty, runStore, applyEffect, jobOps, isJobOp]

/-- Witness for C10 at a concrete environment and request. -/
theorem claimC10_witness :
    POST envNoUser reqFile = (none, [Effect.queryUsers (some (chars "u@example.com"))]) ∧
    runStore (POST envNoUser reqFile).2 = [] ∧
    jobOps (POST envNoUser reqFile).2 = [] ∧
    (POST envNoUser reqFile).1 ≠ some uniformErrorResp := by
  have h := claimC10 envNoUser reqFile rfl
  simpa [reqFile] using h

/-! ## C4 — MIME type determination in urlToInlineData -/

/-- Stated from the claim's words, for comparison with the embedded code: if
the content-type header starts with "image/" it is used, otherwise the
lowercase URL's extension decides, defaulting to image/png. -/
def mimeTypeSpec (contentType : Option Str) (url : Str) : Str :=
  let ext :=
    let lower := toLowerStr url
    if (chars ".jpg").isSuffixOf lower || (chars ".jpeg").isSuffixOf lower then
      chars "image/jpeg"
    else if (chars ".webp").isSuffixOf lower then chars "image/webp"
    else if (chars ".gif").isSuffixOf lower then chars "image/gif"
    else chars "image/png"
  match contentType with
  | some ct => if (chars "image/").isPrefixOf ct then ct else ext
  | none => ext

/-- C4: on every successful fetch (response ok, body at least 20 bytes),
`urlToInlineData` succeeds and resolves the MIME type exactly as the claim
describes: the content-type header when it starts with "image/", otherwise by
the lowercase URL extension with image/png as the default. -/
theorem claimC4 (res : FetchResponse) (url : Str) (hok : res.ok = true)
    (hlen : 20 ≤ res.body.length) :
    ∃ part, urlToInlineData (.resp res) url = .ok part ∧
      part.data = base64Encode res.body ∧
      part.mimeType = mimeTypeSpec res.contentType url := by
  have hlt : ¬ res.body.length < 20 := by omega
  have hpre : (chars "image/").isPrefixOf ([] : Str) = false := by decide
  refine ⟨⟨base64Encode res.body, mimeTypeSpec res.contentType url⟩, ?_, rfl, rfl⟩
  cases hct : res.contentType with
  | none => simp [urlToInlineData, mimeTypeSpec, hok, hlt, hct, hpre]
  | some ct => simp [urlToInlineData, mimeTypeSpec, hok, hlt, hct]

/-- Witness for C4: a `.webp` URL without a content-type header resolves to
image/webp, and a `.xyz` URL resolves to image/png. -/
theorem claimC4_witness :
    (∃ part, urlToInlineData
        (.resp { ok := true, status := 200, contentType := none, body := List.replicate 30 1 })
        (chars "https://cdn/a.WEBP") = .ok part ∧
      part.data = base64Encode (List.replicate 30 1) ∧
      part.mimeType = mimeTypeSpec none (chars "https://cdn/a.WEBP")) ∧
    mimeTypeSpec none (chars "https://cdn/a.WEBP") = chars "image/webp" ∧
    (∃ part, urlToInlineData
        (.resp { ok := true, status := 200, contentType := some (chars "text/html"), body := List.replicate 30 1 })
        (chars "https://cdn/a.xyz") = .ok part ∧
      part.data = base64Encode (List.replicate 30 1) ∧
      part.mimeType = mimeTypeSpec (some (chars "text/html")) (chars "https://cdn/a.xyz")) ∧
    mimeTypeSpec (some (chars "text/html")) (chars "https://cdn/a.xyz") = chars "image/png" := by
  refine ⟨claimC4 _ _ rfl (by decide), by decide, claimC4 _ _ rfl (by decide), by decide⟩

/-! ## C5 — tiny fetched bodies fail before the model is reached -/

/-- C5: a URL fetch whose (otherwise successful) response body is smaller
than 20 bytes makes `urlToInlineData` fail with the EmptyContentError, and a
run whose product image fetch hits this never invokes the generation model. -/
theorem claimC5 (env : Env) (req : Request) (res : FetchResponse)
    (hurl : imageUrlTruthy req = true)
    (hf : env.fetch (req.imageUrl.getD []) = .resp res)
    (hok : res.ok = true) (hsmall : res.body.length < 20) :
    (∀ (r : FetchResponse) (u : Str), r.ok = true → r.body.length < 20 →
      urlToInlineData (.resp r) u = .error .emptyContent) ∧
    (∀ docId, (runPipeline env req docId).1 = .error .emptyContent) ∧
    (∀ m parts, Effect.genContent m parts ∉ (POST env req).2) := by
  have hgen : ∀ (r : FetchResponse) (u : Str), r.ok = true → r.body.length < 20 →
      urlToInlineData (.resp r) u = .error .emptyContent := by
    intro r u hok' hsmall'
    simp [urlToInlineData, hok', hsmall']
  have hnorm : normalizeAsset env req =
      (.error .emptyContent, [Effect.fetchUrl (req.imageUrl.getD [])]) := by
    simp [normalizeAsset, hurl, hf, hgen res _ hok hsmall, Except.map]
  have hrun : ∀ docId, runPipeline env req docId =
      (.error .emptyContent, [Effect.fetchUrl (req.imageUrl.getD [])]) := by
    intro docId
    simp [runPipeline, hnorm]
  refine ⟨hgen, fun docId => by simp [hrun docId], ?_⟩
  intro m parts
  by_cases hu : env.userDocs.isEmpty <;>
    simp [POST, hu, hrun]

/-- Witness for C5: a concrete 5-byte response on the URL branch. -/
theorem claimC5_witness :
    ((∀ (r : FetchResponse) (u : Str), r.ok = true → r.body.length < 20 →
      urlToInlineData (.resp r) u = .error .emptyContent) ∧
    (∀ docId, (runPipeline envTinyBody reqUrlAvatar docId).1 = .error .emptyContent) ∧
    (∀ m parts, Effect.genContent m parts ∉ (POST envTinyBody reqUrlAvatar).2)) := by
  exact claimC5 envTinyBody reqUrlAvatar
    { ok := true, status := 200, contentType := none, body := List.replicate 5 1 }
    (by decide) rfl rfl (by decide)

/-! ## C1 — every failure after intake deletes the record and answers uniformly -/

/-- `find?` never hits a key that `filter` just removed. -/
theorem find_after_filter_ne (s : List (Str × StoredDoc)) (id : Str) :
    (s.filter (fun kv => !(kv.1 == id))).find? (fun kv => kv.1 == id) = none := by
  induction s with
  | nil => simp
  | cons kv s ih =>
    by_cases h : kv.1 == id <;> simp [List.filter_cons, h, List.find?, ih]

/-- Deleting the job record as the last store operation leaves no document
under its key. -/
theorem storeLookup_after_delete (xs : List Effect) (id : Str) :
    storeLookup (runStore (xs ++ [Effect.deleteJob id])) id = none := by
  simp [runStore, List.foldl_append, applyEffect, storeLookup, find_after_filter_ne]

/-- On a failing pipeline with an existing user, the handler's outcome in
full: uniform payload and the trace ending in the record deletion. -/
theorem POST_error_eq (env : Env) (req : Request) (e : PipeError) (fx : List Effect)
    (hu : env.userDocs ≠ [])
    (hrun : runPipeline env req (natToStr env.nowDocId) = (.error e, fx)) :
    POST env req = (some uniformErrorResp,
      Effect.queryUsers req.userEmail ::
        Effect.createJob (natToStr env.nowDocId)
          { userEmail := req.userEmail, status := chars "pending",
            description := req.description, size := req.size,
            docId := natToStr env.nowDocId } ::
        (fx ++ [Effect.deleteJob (natToStr env.nowDocId)])) := by
  have hne : env.userDocs.isEmpty = false := by
    simpa [List.isEmpty_iff] using hu
  simp [POST, hne, hrun]

/-- C1: whenever the try block raises after the job record was created, the
handler deletes the record (so it is absent from the final store), returns the
uniform payload with status 200, and surfaces nothing error-specific: any two
failing runs produce the same response. -/
theorem claimC1 (env : Env) (req : Request) (e : PipeError) (fx : List Effect)
    (hu : env.userDocs ≠ [])
    (hrun : runPipeline env req (natToStr env.nowDocId) = (.error e, fx)) :
    (POST env req).1 = some uniformErrorResp ∧
    uniformErrorResp.status = 200 ∧
    (POST env req).2 = Effect.queryUsers req.userEmail ::
      Effect.createJob (natToStr env.nowDocId)
        { userEmail := req.userEmail, status := chars "pending",
          description := req.description, size := req.size,
          docId := natToStr env.nowDocId } ::
      (fx ++ [Effect.deleteJob (natToStr env.nowDocId)]) ∧
    storeLookup (runStore (POST env req).2) (natToStr env.nowDocId) = none ∧
    (∀ (env₂ : Env) (req₂ : Request) (e₂ : PipeError) (fx₂ : List Effect),
      env₂.userDocs ≠ [] →
      runPipeline env₂ req₂ (natToStr env₂.nowDocId) = (.error e₂, fx₂) →
      (POST env₂ req₂).1 = (POST env req).1) := by
  have hpost := POST_error_eq env req e fx hu hrun
  refine ⟨by simp [hpost], rfl, by simp [hpost], ?_, ?_⟩
  · rw [hpost]
    have heq : Effect.queryUsers req.userEmail ::
        Effect.createJob (natToStr env.nowDocId)
          { userEmail := req.userEmail, status := chars "pending",
            description := req.description, size := req.size,
            docId := natToStr env.nowDocId } ::
        (fx ++ [Effect.deleteJob (natToStr env.nowDocId)]) =
        (Effect.queryUsers req.userEmail ::
          Effect.createJob (natToStr env.nowDocId)
            { userEmail := req.userEmail, status := chars "pending",
              description := req.description, size := req.size,
              docId := natToStr env.nowDocId } :: fx) ++
          [Effect.deleteJob (natToStr env.nowDocId)] := by
      simp
    rw [heq]
    exact storeLookup_after_delete _ _
  · intro env₂ req₂ e₂ fx₂ hu₂ hrun₂
    have hpost₂ := POST_error_eq env₂ req₂ e₂ fx₂ hu₂ hrun₂
    simp [hpost, hpost₂]

/-- Witness for C1: the first model call rejecting. -/
theorem claimC1_witness :
    (POST envGenFail reqFile).1 = some uniformErrorResp ∧
    storeLookup (runStore (POST envGenFail reqFile).2) (natToStr envGenFail.nowDocId) = none := by
  have h := claimC1 envGenFail reqFile .generateFailed
    ((runPipeline envGenFail reqFile (natToStr envGenFail.nowDocId)).2)
    (by decide) (by rfl)
  exact ⟨h.1, h.2.2.2.1⟩

/-! ## Shape of the effect traces, stage by stage -/

/-- Job-store restriction distributes over concatenation. -/
theorem jobOps_append (a b : List Effect) : jobOps (a ++ b) = jobOps a ++ jobOps b :=
  List.filter_append ..

/-- Asset normalization touches the fetch and the image host, never the
job store. -/
theorem normalizeAsset_jobOps (env : Env) (req : Request) :
    jobOps (normalizeAsset env req).2 = [] := by
  cases h : imageUrlTruthy req with
  | true => simp [normalizeAsset, h, jobOps, isJobOp]
  | false =>
    cases hf : req.file with
    | none => simp [normalizeAsset, h, hf, jobOps, isJobOp]
    | some f =>
      cases hp : env.productUpload with
      | error u => simp [normalizeAsset, h, hf, hp, jobOps, isJobOp]
      | ok u => simp [normalizeAsset, h, hf, hp, jobOps, isJobOp]

/-- The first model call's effects, independent of its outcome: exactly one
generation request carrying the chosen instruction template and the product
part. -/
theorem composePrompt_fx (env : Env) (req : Request) (pp : InlinePart) :
    (composePrompt env req pp).2 =
      [Effect.genContent (chars "gemini-2.0-flash")
        [ReqPart.ptext (some (.jstr (if avatarUsable req then chars AVATAR_PROMPT else chars PROMPT))),
         ReqPart.pinline pp]] := by
  cases hj : env.jsonGen <;> simp [composePrompt, hj]

/-- Prompt composition never touches the job store. -/
theorem composePrompt_jobOps (env : Env) (req : Request) (pp : InlinePart) :
    jobOps (composePrompt env req pp).2 = [] := by
  rw [composePrompt_fx]
  simp [jobOps, isJobOp]

/-- Creative generation touches the fetch and the model, never the job
store. -/
theorem generateCreative_jobOps (env : Env) (req : Request) (json : Json) (pp : InlinePart) :
    jobOps (generateCreative env req json pp).2 = [] := by
  cases h : avatarUsable req with
  | false =>
    cases hi : env.imageGen with
    | error u => simp [generateCreative, h, hi, jobOps, isJobOp]
    | ok ps =>
      cases hfind : findInlineImage ps <;>
        simp [generateCreative, h, hi, hfind, jobOps, isJobOp]
  | true =>
    cases hu : urlToInlineData (env.fetch (req.avatar.getD [])) (req.avatar.getD []) with
    | error e => simp [generateCreative, h, hu, jobOps, isJobOp]
    | ok avp =>
      cases hi : env.imageGen with
      | error u => simp [generateCreative, h, hu, hi, jobOps, isJobOp]
      | ok ps =>
        cases hfind : findInlineImage ps <;>
          simp [generateCreative, h, hu, hi, hfind, jobOps, isJobOp]

/-- Publishing either fails after the upload alone, or succeeds with the
upload followed by the completion update whose fields are the host URL, the
product URL, the completed status and the parsed imageToVideo value. -/
theorem publishResult_cases (env : Env) (docId : Str) (json : Json) (purl gen : Str) :
    (∃ e, publishResult env docId json purl gen =
      (.error e, [Effect.uploadImage (chars "data:image/png;base64," ++ gen)
        (chars "generate-" ++ natToStr env.nowUpload2 ++ chars ".png")])) ∨
    (∃ u itv, env.genUpload = .ok u ∧ jsonGetOpt json (chars "imageToVideo") = some itv ∧
      publishResult env docId json purl gen =
        (.ok u.url, [Effect.uploadImage (chars "data:image/png;base64," ++ gen)
            (chars "generate-" ++ natToStr env.nowUpload2 ++ chars ".png"),
          Effect.updateJob docId
            { finalProductImageUrl := u.url, productImageUrl := purl,
              status := chars "completed", imageToVideoPrompt := itv }])) := by
  cases hg : env.genUpload with
  | error u => exact Or.inl ⟨.uploadFailed, by simp [publishResult, hg]⟩
  | ok u =>
    cases json with
    | jnull => exact Or.inl ⟨.typeError, by simp [publishResult, hg]⟩
    | jbool b => exact Or.inl ⟨.undefinedFieldValue, by simp [publishResult, hg, jsonGetOpt]⟩
    | jnum s => exact Or.inl ⟨.undefinedFieldValue, by simp [publishResult, hg, jsonGetOpt]⟩
    | jstr s => exact Or.inl ⟨.undefinedFieldValue, by simp [publishResult, hg, jsonGetOpt]⟩
    | jarr xs => exact Or.inl ⟨.undefinedFieldValue, by simp [publishResult, hg, jsonGetOpt]⟩
    | jobj ms =>
      cases hl : jsonGetOpt (.jobj ms) (chars "imageToVideo") with
      | none => exact Or.inl ⟨.undefinedFieldValue, by simp [publishResult, hg, hl]⟩
      | some itv => exact Or.inr ⟨u, itv, rfl, rfl, by simp [publishResult, hg, hl]⟩

/-- Computation rule: a normalization failure aborts the pipeline. -/
theorem runPipeline_eq1 (env : Env) (req : Request) (d : Str) (e : PipeError)
    (fx1 : List Effect) (hn : normalizeAsset env req = (.error e, fx1)) :
    runPipeline env req d = (.error e, fx1) := by
  simp [runPipeline, hn]

/-- Computation rule: a prompt-composition failure aborts the pipeline. -/
theorem runPipeline_eq2 (env : Env) (req : Request) (d : Str) (e : PipeError)
    (purl : Str) (pp : InlinePart) (fx1 fx2 : List Effect)
    (hn : normalizeAsset env req = (.ok (purl, pp), fx1))
    (hc : composePrompt env req pp = (.error e, fx2)) :
    runPipeline env req d = (.error e, fx1 ++ fx2) := by
  simp [runPipeline, hn, hc]

/-- Computation rule: a creative-generation failure aborts the pipeline. -/
theorem runPipeline_eq3 (env : Env) (req : Request) (d : Str) (e : PipeError)
    (purl : Str) (pp : InlinePart) (json : Json) (fx1 fx2 fx3 : List Effect)
    (hn : normalizeAsset env req = (.ok (purl, pp), fx1))
    (hc : composePrompt env req pp = (.ok json, fx2))
    (hg : generateCreative env req json pp = (.error e, fx3)) :
    runPipeline env req d = (.error e, fx1 ++ fx2 ++ fx3) := by
  simp [runPipeline, hn, hc, hg]

/-- Computation rule: with all three stages succeeding, the pipeline ends as
the publishing step ends. -/
theorem runPipeline_eq4 (env : Env) (req : Request) (d : Str)
    (purl : Str) (pp : InlinePart) (json : Json) (gen : Str)
    (res : Except PipeError Str) (fx1 fx2 fx3 fx4 : List Effect)
    (hn : normalizeAsset env req = (.ok (purl, pp), fx1))
    (hc : composePrompt env req pp = (.ok json, fx2))
    (hg : generateCreative env req json pp = (.ok gen, fx3))
    (hp : publishResult env d json purl gen = (res, fx4)) :
    runPipeline env req d = (res, fx1 ++ fx2 ++ fx3 ++ fx4) := by
  simp [runPipeline, hn, hc, hg, hp]

/-- A failing try block performs no store operation of its own. -/
theorem runPipeline_error_jobOps (env : Env) (req : Request) (docId : Str)
    (e : PipeError) (fx : List Effect)
    (h : runPipeline env req docId = (.error e, fx)) : jobOps fx = [] := by
  rcases hn : normalizeAsset env req with ⟨r1, fx1⟩
  have hjn : jobOps fx1 = [] := by
    have h0 := normalizeAsset_jobOps env req
    rwa [hn] at h0
  cases r1 with
  | error e1 =>
    rw [runPipeline_eq1 env req docId e1 fx1 hn] at h
    obtain ⟨-, h2⟩ := Prod.mk.injEq .. ▸ h
    rw [← h2]
    exact hjn
  | ok pr =>
    obtain ⟨purl, pp⟩ := pr
    rcases hc : composePrompt env req pp with ⟨r2, fx2⟩
    have hjc : jobOps fx2 = [] := by
      have h0 := composePrompt_jobOps env req pp
      rwa [hc] at h0
    cases r2 with
    | error e2 =>
      rw [runPipeline_eq2 env req docId e2 purl pp fx1 fx2 hn hc] at h
      obtain ⟨-, h2⟩ := Prod.mk.injEq .. ▸ h
      rw [← h2, jobOps_append, hjn, hjc]
      rfl
    | ok json =>
      rcases hg : generateCreative env req json pp with ⟨r3, fx3⟩
      have hjg : jobOps fx3 = [] := by
        have h0 := generateCreative_jobOps env req json pp
        rwa [hg] at h0
      cases r3 with
      | error e3 =>
        rw [runPipeline_eq3 env req docId e3 purl pp json fx1 fx2 fx3 hn hc hg] at h
        obtain ⟨-, h2⟩ := Prod.mk.injEq .. ▸ h
        rw [← h2, jobOps_append, jobOps_append, hjn, hjc, hjg]
        rfl
      | ok gen =>
        rcases hp : publishResult env docId json purl gen with ⟨r4, fx4⟩
        rw [runPipeline_eq4 env req docId purl pp json gen r4 fx1 fx2 fx3 fx4 hn hc hg hp] at h
        obtain ⟨h1, h2⟩ := Prod.mk.injEq .. ▸ h
        rcases publishResult_cases env docId json purl gen with ⟨e', hpe⟩ | ⟨u, itv, hgu, hl, hps⟩
        · rw [hp] at hpe
          obtain ⟨-, h4⟩ := Prod.mk.injEq .. ▸ hpe
          rw [← h2, h4, jobOps_append, jobOps_append, jobOps_append, hjn, hjc, hjg]
          simp [jobOps, isJobOp]
        · rw [hp] at hps
          obtain ⟨h3, -⟩ := Prod.mk.injEq .. ▸ hps
          rw [h3] at h1
          exact absurd h1 (by simp)

/-- A successful try block performs exactly one store operation: the
completion update, whose final URL is the returned value. -/
theorem runPipeline_success_jobOps (env : Env) (req : Request) (docId : Str)
    (url : Str) (fx : List Effect)
    (h : runPipeline env req docId = (.ok url, fx)) :
    ∃ upd : CompletedUpdate, jobOps fx = [Effect.updateJob docId upd] ∧
      upd.status = chars "completed" ∧ upd.finalProductImageUrl = url := by
  rcases hn : normalizeAsset env req with ⟨r1, fx1⟩
  have hjn : jobOps fx1 = [] := by
    have h0 := normalizeAsset_jobOps env req
    rwa [hn] at h0
  cases r1 with
  | error e1 =>
    rw [runPipeline_eq1 env req docId e1 fx1 hn] at h
    obtain ⟨h1, -⟩ := Prod.mk.injEq .. ▸ h
    exact absurd h1 (by simp)
  | ok pr =>
    obtain ⟨purl, pp⟩ := pr
    rcases hc : composePrompt env req pp with ⟨r2, fx2⟩
    have hjc : jobOps fx2 = [] := by
      have h0 := composePrompt_jobOps env req pp
      rwa [hc] at h0
    cases r2 with
    | error e2 =>
      rw [runPipeline_eq2 env req docId e2 purl pp fx1 fx2 hn hc] at h
      obtain ⟨h1, -⟩ := Prod.mk.injEq .. ▸ h
      exact absurd h1 (by simp)
    | ok json =>
      rcases hg : generateCreative env req json pp with ⟨r3, fx3⟩
      have hjg : jobOps fx3 = [] := by
        have h0 := generateCreative_jobOps env req json pp
        rwa [hg] at h0
      cases r3 with
      | error e3 =>
        rw [runPipeline_eq3 env req docId e3 purl pp json fx1 fx2 fx3 hn hc hg] at h
        obtain ⟨h1, -⟩ := Prod.mk.injEq .. ▸ h
        exact absurd h1 (by simp)
      | ok gen =>
        rcases hp : publishResult env docId json purl gen with ⟨r4, fx4⟩
        rw [runPipeline_eq4 env req docId purl pp json gen r4 fx1 fx2 fx3 fx4 hn hc hg hp] at h
        obtain ⟨h1, h2⟩ := Prod.mk.injEq .. ▸ h
        rcases publishResult_cases env docId json purl gen with ⟨e', hpe⟩ | ⟨u, itv, hgu, hl, hps⟩
        · rw [hp] at hpe
          obtain ⟨h3, -⟩ := Prod.mk.injEq .. ▸ hpe
          rw [h3] at h1
          exact absurd h1 (by simp)
        · rw [hp] at hps
          obtain ⟨h3, h4⟩ := Prod.mk.injEq .. ▸ hps
          refine ⟨{ finalProductImageUrl := u.url, productImageUrl := purl,
                    status := chars "completed", imageToVideoPrompt := itv }, ?_, rfl, ?_⟩
          · rw [← h2, h4, jobOps_append, jobOps_append, jobOps_append, hjn, hjc, hjg]
            simp [jobOps, isJobOp]
          · rw [h3] at h1
            simpa using h1

/-- Effects that are not store operations leave the collection unchanged. -/
theorem applyEffect_nonJob (s : List (Str × StoredDoc)) (e : Effect)
    (h : isJobOp e = false) : applyEffect s e = s := by
  cases e <;> simp_all [isJobOp, applyEffect]

/-- Replaying a trace against the store is the same as replaying only its
store operations. -/
theorem foldl_applyEffect_jobOps (fx : List Effect) (s : List (Str × StoredDoc)) :
    fx.foldl applyEffect s = (jobOps fx).foldl applyEffect s := by
  induction fx generalizing s with
  | nil => rfl
  | cons e fx ih =>
    cases he : isJobOp e with
    | false =>
      simp only [List.foldl_cons, jobOps, List.filter_cons, he,
        applyEffect_nonJob s e he]
      exact ih s
    | true =>
      simp only [List.foldl_cons, jobOps, List.filter_cons, he]
      exact ih (applyEffect s e)

/-- Filtering a trace headed by the query and the intake write keeps the
intake write and continues with the tail's store operations. -/
theorem jobOps_cons_head (em : Option Str) (id : Str) (pr : PendingRecord)
    (fx : List Effect) :
    jobOps (Effect.queryUsers em :: Effect.createJob id pr :: fx) =
      Effect.createJob id pr :: jobOps fx := by
  simp [jobOps, isJobOp]

/-! ## C3 — job records: one pending create, then completion or deletion -/

/-- C3: every run either touches the store not at all (no user document), or
writes exactly one pending record at intake and thereafter exactly one of the
completion update (status completed) or the deletion; no create or update
anywhere in any trace carries any status other than pending respectively
completed, so no `failed` (or other third) status is ever persisted. -/
theorem claimC3 (env : Env) (req : Request) :
    (env.userDocs = [] → jobOps (POST env req).2 = []) ∧
    (env.userDocs ≠ [] →
      (∃ upd : CompletedUpdate,
          jobOps (POST env req).2 =
            [Effect.createJob (natToStr env.nowDocId)
              { userEmail := req.userEmail, status := chars "pending",
                description := req.description, size := req.size,
                docId := natToStr env.nowDocId },
             Effect.updateJob (natToStr env.nowDocId) upd] ∧
          upd.status = chars "completed") ∨
      jobOps (POST env req).2 =
        [Effect.createJob (natToStr env.nowDocId)
            { userEmail := req.userEmail, status := chars "pending",
              description := req.description, size := req.size,
              docId := natToStr env.nowDocId },
         Effect.deleteJob (natToStr env.nowDocId)]) ∧
    (∀ id r, Effect.createJob id r ∈ (POST env req).2 → r.status = chars "pending") ∧
    (∀ id u, Effect.updateJob id u ∈ (POST env req).2 → u.status = chars "completed") := by
  by_cases hu : env.userDocs = []
  · have hempty : env.userDocs.isEmpty = true := by simp [hu]
    have htr : (POST env req).2 = [Effect.queryUsers req.userEmail] := by
      simp [POST, hempty]
    refine ⟨fun _ => by simp [htr, jobOps, isJobOp], fun h => absurd hu h, ?_, ?_⟩
    · intro id r hmem
      rw [htr] at hmem
      simp at hmem
    · intro id u hmem
      rw [htr] at hmem
      simp at hmem
  · have hne : env.userDocs.isEmpty = false := by
      simpa [List.isEmpty_iff] using hu
    rcases hr : runPipeline env req (natToStr env.nowDocId) with ⟨res, fx⟩
    cases res with
    | ok url =>
      have htr : (POST env req).2 = Effect.queryUsers req.userEmail ::
          Effect.createJob (natToStr env.nowDocId)
            { userEmail := req.userEmail, status := chars "pending",
              description := req.description, size := req.size,
              docId := natToStr env.nowDocId } :: fx := by
        simp [POST, hne, hr]
      obtain ⟨upd, hjo, hst, hfin⟩ := runPipeline_success_jobOps env req _ url fx hr
      have hjt : jobOps (POST env req).2 =
          [Effect.createJob (natToStr env.nowDocId)
            { userEmail := req.userEmail, status := chars "pending",
              description := req.description, size := req.size,
              docId := natToStr env.nowDocId },
           Effect.updateJob (natToStr env.nowDocId) upd] := by
        rw [htr, jobOps_cons_head, hjo]
      refine ⟨fun h => absurd h hu, fun _ => Or.inl ⟨upd, hjt, hst⟩, ?_, ?_⟩
      · intro id r hmem
        have hmem2 : Effect.createJob id r ∈ jobOps (POST env req).2 :=
          List.mem_filter.mpr ⟨hmem, rfl⟩
        rw [hjt] at hmem2
        simp only [List.mem_cons, List.mem_singleton] at hmem2
        rcases hmem2 with h1 | h1 | h1
        · obtain ⟨-, h2⟩ := Effect.createJob.injEq .. ▸ h1
          rw [h2]
        · exact absurd h1 (by simp)
        · exact absurd h1 (by simp)
      · intro id u hmem
        have hmem2 : Effect.updateJob id u ∈ jobOps (POST env req).2 :=
          List.mem_filter.mpr ⟨hmem, rfl⟩
        rw [hjt] at hmem2
        simp only [List.mem_cons, List.mem_singleton] at hmem2
        rcases hmem2 with h1 | h1 | h1
        · exact absurd h1 (by simp)
        · obtain ⟨-, h2⟩ := Effect.updateJob.injEq .. ▸ h1
          rw [h2]
          exact hst
        · exact absurd h1 (by simp)
    | error e =>
      have htr : (POST env req).2 = Effect.queryUsers req.userEmail ::
          Effect.createJob (natToStr env.nowDocId)
            { userEmail := req.userEmail, status := chars "pending",
              description := req.description, size := req.size,
              docId := natToStr env.nowDocId } ::
          (fx ++ [Effect.deleteJob (natToStr env.nowDocId)]) := by
        simp [POST, hne, hr]
      have hjo := runPipeline_error_jobOps env req _ e fx hr
      have hjt : jobOps (POST env req).2 =
          [Effect.createJob (natToStr env.nowDocId)
            { userEmail := req.userEmail, status := chars "pending",
              description := req.description, size := req.size,
              docId := natToStr env.nowDocId },
           Effect.deleteJob (natToStr env.nowDocId)] := by
        rw [htr, jobOps_cons_head, jobOps_append, hjo]
        simp [jobOps, isJobOp]
      refine ⟨fun h => absurd h hu, fun _ => Or.inr hjt, ?_, ?_⟩
      · intro id r hmem
        have hmem2 : Effect.createJob id r ∈ jobOps (POST env req).2 :=
          List.mem_filter.mpr ⟨hmem, rfl⟩
        rw [hjt] at hmem2
        simp only [List.mem_cons, List.mem_singleton] at hmem2
        rcases hmem2 with h1 | h1 | h1
        · obtain ⟨-, h2⟩ := Effect.createJob.injEq .. ▸ h1
          rw [h2]
        · exact absurd h1 (by simp)
        · exact absurd h1 (by simp)
      · intro id u hmem
        have hmem2 : Effect.updateJob id u ∈ jobOps (POST env req).2 :=
          List.mem_filter.mpr ⟨hmem, rfl⟩
        rw [hjt] at hmem2
        simp only [List.mem_cons, List.mem_singleton] at hmem2
        rcases hmem2 with h1 | h1 | h1
        · exact absurd h1 (by simp)
        · exact absurd h1 (by simp)
        · exact absurd h1 (by simp)

/-- Witness for C3: the success branch of a concrete run. -/
theorem claimC3_witness :
    (∃ upd : CompletedUpdate,
        jobOps (POST envOk reqFile).2 =
          [Effect.createJob (natToStr envOk.nowDocId)
            { userEmail := reqFile.userEmail, status := chars "pending",
              description := reqFile.description, size := reqFile.size,
              docId := natToStr envOk.nowDocId },
           Effect.updateJob (natToStr envOk.nowDocId) upd] ∧
        upd.status = chars "completed") ∨
    jobOps (POST envOk reqFile).2 =
      [Effect.createJob (natToStr envOk.nowDocId)
          { userEmail := reqFile.userEmail, status := chars "pending",
            description := reqFile.description, size := reqFile.size,
            docId := natToStr envOk.nowDocId },
       Effect.deleteJob (natToStr envOk.nowDocId)] :=
  (claimC3 envOk reqFile).2.1 (by decide)

/-! ## C2 — successful runs: completed record, returned value = stored URL -/

/-- C2 (amended): on every successful run the handler returns the uploaded
image's host URL with status 200, the job record is updated to `completed`,
and the stored `finalProductImageUrl` equals the returned value while
`productImageUrl` and `imageToVideoPrompt` hold the update's values (so all
three fields are populated, and are non-empty exactly when the host URL, the
normalized product URL and the parsed imageToVideo string are non-empty; the
code itself does not rule out empty values coming back from the
collaborators, see the counterexample). -/
theorem claimC2 (env : Env) (req : Request) (url : Str) (fx : List Effect)
    (hu : env.userDocs ≠ [])
    (hrun : runPipeline env req (natToStr env.nowDocId) = (.ok url, fx)) :
    (POST env req).1 = some { body := Json.jstr url, status := 200 } ∧
    ∃ upd : CompletedUpdate,
      jobOps (POST env req).2 =
        [Effect.createJob (natToStr env.nowDocId)
          { userEmail := req.userEmail, status := chars "pending",
            description := req.description, size := req.size,
            docId := natToStr env.nowDocId },
         Effect.updateJob (natToStr env.nowDocId) upd] ∧
      upd.status = chars "completed" ∧
      upd.finalProductImageUrl = url ∧
      storeLookup (runStore (POST env req).2) (natToStr env.nowDocId) = some
        { userEmail := req.userEmail, status := chars "completed",
          description := req.description, size := req.size,
          docId := natToStr env.nowDocId,
          finalProductImageUrl := some url,
          productImageUrl := some upd.productImageUrl,
          imageToVideoPrompt := some upd.imageToVideoPrompt } := by
  have hne : env.userDocs.isEmpty = false := by
    simpa [List.isEmpty_iff] using hu
  have htr : (POST env req).2 = Effect.queryUsers req.userEmail ::
      Effect.createJob (natToStr env.nowDocId)
        { userEmail := req.userEmail, status := chars "pending",
          description := req.description, size := req.size,
          docId := natToStr env.nowDocId } :: fx := by
    simp [POST, hne, hrun]
  obtain ⟨upd, hjo, hst, hfin⟩ := runPipeline_success_jobOps env req _ url fx hrun
  have hjt : jobOps (POST env req).2 =
      [Effect.createJob (natToStr env.nowDocId)
        { userEmail := req.userEmail, status := chars "pending",
          description := req.description, size := req.size,
          docId := natToStr env.nowDocId },
       Effect.updateJob (natToStr env.nowDocId) upd] := by
    rw [htr, jobOps_cons_head, hjo]
  refine ⟨by simp [POST, hne, hrun], upd, hjt, hst, hfin, ?_⟩
  rw [runStore, foldl_applyEffect_jobOps, hjt]
  simp [applyEffect, storeLookup, hfin, hst]

/-- Witness for C2 at a concrete successful run. -/
theorem claimC2_witness :
    (POST envOk reqFile).1 =
      some { body := Json.jstr (chars "https://ik/g.png"), status := 200 } ∧
    ∃ upd : CompletedUpdate,
      jobOps (POST envOk reqFile).2 =
        [Effect.createJob (natToStr envOk.nowDocId)
          { userEmail := reqFile.userEmail, status := chars "pending",
            description := reqFile.description, size := reqFile.size,
            docId := natToStr envOk.nowDocId },
         Effect.updateJob (natToStr envOk.nowDocId) upd] ∧
      upd.status = chars "completed" ∧
      upd.finalProductImageUrl = chars "https://ik/g.png" ∧
      storeLookup (runStore (POST envOk reqFile).2) (natToStr envOk.nowDocId) = some
        { userEmail := reqFile.userEmail, status := chars "completed",
          description := reqFile.description, size := reqFile.size,
          docId := natToStr envOk.nowDocId,
          finalProductImageUrl := some (chars "https://ik/g.png"),
          productImageUrl := some upd.productImageUrl,
          imageToVideoPrompt := some upd.imageToVideoPrompt } :=
  claimC2 envOk reqFile (chars "https://ik/g.png")
    ((runPipeline envOk reqFile (natToStr envOk.nowDocId)).2) (by decide) (by rfl)

/-- An environment whose first model call returns an empty `imageToVideo`. -/
def envItvEmpty : Env :=
  { envOk with jsonGen := .ok (some (chars "\x7b\"textToImage\":\"T\",\"imageToVideo\":\"\"\x7d")) }

/-- Counterexample to C2 as stated: a run that succeeds (returns the host
URL, record updated to completed) while the stored `imageToVideoPrompt` is
the empty string — so "non-empty ... imageToVideoPrompt" does not hold on
the code, which stores whatever string the model produced. -/
theorem claimC2_counterexample :
    (POST envItvEmpty reqFile).1 =
      some { body := Json.jstr (chars "https://ik/g.png"), status := 200 } ∧
    storeLookup (runStore (POST envItvEmpty reqFile).2) (natToStr envItvEmpty.nowDocId) =
      some { userEmail := reqFile.userEmail, status := chars "completed",
             description := reqFile.description, size := reqFile.size,
             docId := natToStr envItvEmpty.nowDocId,
             finalProductImageUrl := some (chars "https://ik/g.png"),
             productImageUrl := some (chars "https://ik/p.png"),
             imageToVideoPrompt := some (Json.jstr []) } := by
  exact ⟨rfl, rfl⟩

/-! ## C9 — product-image uploads happen exactly on the file branch -/

/-- Is the effect a generation-model invocation? -/
def isGenEffect : Effect → Bool
  | .genContent _ _ => true
  | _ => false

/-- Is the effect an image-host upload? -/
def isUploadEffect : Effect → Bool
  | .uploadImage _ _ => true
  | _ => false

/-- The uploads a run performs before its first model invocation: exactly the
product-image uploads, since the generated creative's upload always follows
both `generateContent` calls. -/
def productUploads (fx : List Effect) : List Effect :=
  (fx.takeWhile (fun e => !isGenEffect e)).filter isUploadEffect

/-- `takeWhile` passes over a block that satisfies the predicate. -/
theorem takeWhile_append_all {α : Type} (p : α → Bool) (xs ys : List α)
    (h : ∀ e ∈ xs, p e = true) :
    (xs ++ ys).takeWhile p = xs ++ ys.takeWhile p := by
  induction xs with
  | nil => rfl
  | cons x xs ih =>
    have hx : p x = true := h x (by simp)
    simp only [List.cons_append, List.takeWhile_cons, hx, if_true]
    rw [ih (fun e he => h e (by simp [he]))]

/-- `takeWhile` eats a whole list that satisfies the predicate. -/
theorem takeWhile_eq_self_of_all {α : Type} (p : α → Bool) (xs : List α)
    (h : ∀ e ∈ xs, p e = true) : xs.takeWhile p = xs := by
  have := takeWhile_append_all p xs [] h
  simpa using this

/-- Asset normalization never invokes the generation model. -/
theorem normalizeAsset_noGen (env : Env) (req : Request) :
    ∀ e ∈ (normalizeAsset env req).2, isGenEffect e = false := by
  cases h : imageUrlTruthy req with
  | true => simp [normalizeAsset, h, isGenEffect]
  | false =>
    cases hf : req.file with
    | none => simp [normalizeAsset, h, hf]
    | some f =>
      cases hp : env.productUpload with
      | error u => simp [normalizeAsset, h, hf, hp, isGenEffect]
      | ok u => simp [normalizeAsset, h, hf, hp, isGenEffect]

/-- On the URL branch normalization only fetches. -/
theorem normalizeAsset_fx_url (env : Env) (req : Request)
    (h : imageUrlTruthy req = true) :
    (normalizeAsset env req).2 = [Effect.fetchUrl (req.imageUrl.getD [])] := by
  simp [normalizeAsset, h]

/-- On the file branch normalization uploads the file's base64 exactly once. -/
theorem normalizeAsset_fx_file (env : Env) (req : Request) (f : FileData)
    (h : imageUrlTruthy req = false) (hf : req.file = some f) :
    (normalizeAsset env req).2 =
      [Effect.uploadImage (base64Encode f.bytes) (natToStr env.nowUpload1 ++ chars ".png")] := by
  cases hp : env.productUpload with
  | error u => simp [normalizeAsset, h, hf, hp]
  | ok u => simp [normalizeAsset, h, hf, hp]

/-- The whole-run effect list always consists of the normalization effects
followed either by nothing or by a block headed by the first model
invocation. -/
theorem runPipeline_fx_split (env : Env) (req : Request) (d : Str) :
    (runPipeline env req d).2 = (normalizeAsset env req).2 ∨
    ∃ ps rest, (runPipeline env req d).2 =
      (normalizeAsset env req).2 ++
        (Effect.genContent (chars "gemini-2.0-flash") ps :: rest) := by
  rcases hn : normalizeAsset env req with ⟨r1, fx1⟩
  cases r1 with
  | error e1 =>
    left
    rw [runPipeline_eq1 env req d e1 fx1 hn]
  | ok pr =>
    obtain ⟨purl, pp⟩ := pr
    right
    rcases hc : composePrompt env req pp with ⟨r2, fx2⟩
    have hfx2 : fx2 = [Effect.genContent (chars "gemini-2.0-flash")
        [ReqPart.ptext (some (.jstr (if avatarUsable req then chars AVATAR_PROMPT else chars PROMPT))),
         ReqPart.pinline pp]] := by
      have h0 := composePrompt_fx env req pp
      rw [hc] at h0
      exact h0
    cases r2 with
    | error e2 =>
      refine ⟨[ReqPart.ptext (some (.jstr (if avatarUsable req then chars AVATAR_PROMPT else chars PROMPT))),
          ReqPart.pinline pp], [], ?_⟩
      rw [runPipeline_eq2 env req d e2 purl pp fx1 fx2 hn hc]
      simp [hfx2]
    | ok json =>
      rcases hg : generateCreative env req json pp with ⟨r3, fx3⟩
      cases r3 with
      | error e3 =>
        refine ⟨[ReqPart.ptext (some (.jstr (if avatarUsable req then chars AVATAR_PROMPT else chars PROMPT))),
          ReqPart.pinline pp], fx3, ?_⟩
        rw [runPipeline_eq3 env req d e3 purl pp json fx1 fx2 fx3 hn hc hg]
        simp [hfx2]
      | ok gen =>
        rcases hp : publishResult env d json purl gen with ⟨r4, fx4⟩
        refine ⟨[ReqPart.ptext (some (.jstr (if avatarUsable req then chars AVATAR_PROMPT else chars PROMPT))),
          ReqPart.pinline pp], fx3 ++ fx4, ?_⟩
        rw [runPipeline_eq4 env req d purl pp json gen r4 fx1 fx2 fx3 fx4 hn hc hg hp]
        simp [hfx2]

/-- In every run that reaches the pipeline, the uploads before the first
model invocation are exactly the normalization stage's uploads. -/
theorem productUploads_eq (env : Env) (req : Request) (hu : env.userDocs ≠ []) :
    productUploads (POST env req).2 =
      (normalizeAsset env req).2.filter isUploadEffect := by
  have hne : env.userDocs.isEmpty = false := by
    simpa [List.isEmpty_iff] using hu
  have hall : ∀ e ∈ (normalizeAsset env req).2, (!isGenEffect e) = true := by
    intro e he
    simp [normalizeAsset_noGen env req e he]
  have hq : (!isGenEffect (Effect.queryUsers req.userEmail)) = true := rfl
  have hcj : ∀ (a : Str) (b : PendingRecord), (!isGenEffect (Effect.createJob a b)) = true :=
    fun _ _ => rfl
  have hgg : ∀ (m : Str) (p : List ReqPart), (!isGenEffect (Effect.genContent m p)) = false :=
    fun _ _ => rfl
  have hdel : ∀ a : Str, (!isGenEffect (Effect.deleteJob a)) = true := fun _ => rfl
  have hfq : isUploadEffect (Effect.queryUsers req.userEmail) = false := rfl
  have hfc : ∀ (a : Str) (b : PendingRecord), isUploadEffect (Effect.createJob a b) = false :=
    fun _ _ => rfl
  have hfd : ∀ a : Str, isUploadEffect (Effect.deleteJob a) = false := fun _ => rfl
  rcases hr : runPipeline env req (natToStr env.nowDocId) with ⟨res, fx⟩
  have hsplit := runPipeline_fx_split env req (natToStr env.nowDocId)
  rw [hr] at hsplit
  have hsplit' : fx = (normalizeAsset env req).2 ∨
      ∃ ps rest, fx = (normalizeAsset env req).2 ++
        (Effect.genContent (chars "gemini-2.0-flash") ps :: rest) := hsplit
  cases res with
  | ok url =>
    have htr : (POST env req).2 = Effect.queryUsers req.userEmail ::
        Effect.createJob (natToStr env.nowDocId)
          { userEmail := req.userEmail, status := chars "pending",
            description := req.description, size := req.size,
            docId := natToStr env.nowDocId } :: fx := by
      simp [POST, hne, hr]
    rcases hsplit' with hfx | ⟨ps, rest, hfx⟩
    · rw [htr, hfx, productUploads]
      simp only [List.takeWhile_cons, hq, hcj, if_true]
      rw [takeWhile_eq_self_of_all _ _ hall]
      simp [List.filter_cons, hfq, hfc]
    · rw [htr, hfx, productUploads]
      simp only [List.takeWhile_cons, hq, hcj, if_true]
      rw [takeWhile_append_all _ _ _ hall]
      simp only [List.takeWhile_cons, hgg]
      simp [List.filter_append, List.filter_cons, hfq, hfc]
  | error e =>
    have htr : (POST env req).2 = Effect.queryUsers req.userEmail ::
        Effect.createJob (natToStr env.nowDocId)
          { userEmail := req.userEmail, status := chars "pending",
            description := req.description, size := req.size,
            docId := natToStr env.nowDocId } ::
        (fx ++ [Effect.deleteJob (natToStr env.nowDocId)]) := by
      simp [POST, hne, hr]
    rcases hsplit' with hfx | ⟨ps, rest, hfx⟩
    · rw [htr, hfx, productUploads]
      simp only [List.takeWhile_cons, hq, hcj, if_true]
      rw [takeWhile_append_all _ _ _ hall]
      simp only [List.takeWhile_cons, hdel, if_true, List.takeWhile_nil]
      simp [List.filter_append, List.filter_cons, hfq, hfc, hfd]
    · rw [htr, hfx, productUploads]
      simp only [List.takeWhile_cons, hq, hcj, if_true]
      rw [List.append_assoc, takeWhile_append_all _ _ _ hall]
      simp only [List.cons_append, List.takeWhile_cons, hgg]
      simp [List.filter_append, List.filter_cons, hfq, hfc]

/-- C9: with a user document present, a run whose request passed an existing
image URL performs no product-image upload before the model is invoked (the
URL branch only fetches), while a run given raw file bytes performs exactly
one, carrying the file's base64 under the timestamped name. -/
theorem claimC9 (env : Env) (req : Request) (hu : env.userDocs ≠ []) :
    (imageUrlTruthy req = true → productUploads (POST env req).2 = []) ∧
    (imageUrlTruthy req = false → ∀ f, req.file = some f →
      productUploads (POST env req).2 =
        [Effect.uploadImage (base64Encode f.bytes)
          (natToStr env.nowUpload1 ++ chars ".png")]) := by
  constructor
  · intro h
    rw [productUploads_eq env req hu, normalizeAsset_fx_url env req h]
    simp [List.filter_cons, isUploadEffect]
  · intro h f hf
    rw [productUploads_eq env req hu, normalizeAsset_fx_file env req f h hf]
    simp [List.filter_cons, isUploadEffect]

/-- Witness for C9: the URL-branch and file-branch runs. -/
theorem claimC9_witness :
    productUploads (POST envOk reqUrlAvatar).2 = [] ∧
    productUploads (POST envOk reqFile).2 =
      [Effect.uploadImage (base64Encode (List.replicate 25 7))
        (natToStr envOk.nowUpload1 ++ chars ".png")] := by
  refine ⟨(claimC9 envOk reqUrlAvatar (by decide)).1 (by decide), ?_⟩
  have h := (claimC9 envOk reqFile (by decide)).2 (by decide)
    { bytes := List.replicate 25 7, ftype := chars "image/jpeg" } rfl
  exact h

/-! ## C8 — template choice and avatar attachment -/

/-- Publishing never invokes the generation model. -/
theorem publishResult_noGen (env : Env) (d : Str) (json : Json) (purl gen : Str) :
    ∀ m p, Effect.genContent m p ∉ (publishResult env d json purl gen).2 := by
  intro m p hmem
  rcases publishResult_cases env d json purl gen with ⟨e, hpe⟩ | ⟨u, itv, hgu, hl, hps⟩
  · rw [hpe] at hmem
    simp at hmem
  · rw [hps] at hmem
    simp at hmem

/-- A model invocation recorded by the prompt-composition stage is the
first call: flash model, chosen template, product part. -/
theorem composePrompt_gen_mem (env : Env) (req : Request) (pp : InlinePart)
    (m : Str) (parts : List ReqPart)
    (hmem : Effect.genContent m parts ∈ (composePrompt env req pp).2) :
    m = chars "gemini-2.0-flash" ∧
    parts = [ReqPart.ptext (some (.jstr
      (if avatarUsable req then chars AVATAR_PROMPT else chars PROMPT))),
      ReqPart.pinline pp] := by
  rw [composePrompt_fx] at hmem
  simpa using hmem

/-- A model invocation recorded by the creative-generation stage is the
second call: image model, the parsed textToImage, the product part, and the
avatar part exactly when a usable avatar was supplied (fetched from its
URL). -/
theorem generateCreative_gen_mem (env : Env) (req : Request) (json : Json)
    (pp : InlinePart) (m : Str) (parts : List ReqPart)
    (hmem : Effect.genContent m parts ∈ (generateCreative env req json pp).2) :
    m = chars "gemini-2.5-flash-image" ∧
    ((avatarUsable req = false ∧
        parts = [ReqPart.ptext (jsonGetOpt json (chars "textToImage")),
          ReqPart.pinline pp]) ∨
     (avatarUsable req = true ∧
        ∃ avp, urlToInlineData (env.fetch (req.avatar.getD [])) (req.avatar.getD []) = .ok avp ∧
          parts = [ReqPart.ptext (jsonGetOpt json (chars "textToImage")),
            ReqPart.pinline pp, ReqPart.pinline avp])) := by
  cases h : avatarUsable req with
  | false =>
    have hfx : (generateCreative env req json pp).2 =
        [Effect.genContent (chars "gemini-2.5-flash-image")
          [ReqPart.ptext (jsonGetOpt json (chars "textToImage")), ReqPart.pinline pp]] := by
      cases hi : env.imageGen with
      | error u => simp [generateCreative, h, hi]
      | ok ps2 => cases hfind : findInlineImage ps2 <;> simp [generateCreative, h, hi, hfind]
    rw [hfx] at hmem
    simp at hmem
    exact ⟨hmem.1, Or.inl ⟨rfl, hmem.2⟩⟩
  | true =>
    cases hav : urlToInlineData (env.fetch (req.avatar.getD [])) (req.avatar.getD []) with
    | error e =>
      have hfx : (generateCreative env req json pp).2 = [Effect.fetchUrl (req.avatar.getD [])] := by
        simp [generateCreative, h, hav]
      rw [hfx] at hmem
      simp at hmem
    | ok avp =>
      have hfx : (generateCreative env req json pp).2 =
          [Effect.fetchUrl (req.avatar.getD []),
           Effect.genContent (chars "gemini-2.5-flash-image")
             [ReqPart.ptext (jsonGetOpt json (chars "textToImage")), ReqPart.pinline pp,
              ReqPart.pinline avp]] := by
        cases hi : env.imageGen with
        | error u => simp [generateCreative, h, hav, hi]
        | ok ps2 => cases hfind : findInlineImage ps2 <;> simp [generateCreative, h, hav, hi, hfind]
      rw [hfx] at hmem
      simp at hmem
      exact ⟨hmem.1, Or.inr ⟨rfl, avp, rfl, hmem.2⟩⟩

/-- Every model invocation of a run comes from the prompt-composition stage
or from the creative-generation stage, with the product part produced by a
successful normalization. -/
theorem runPipeline_gen_mem (env : Env) (req : Request) (d : Str)
    (m : Str) (parts : List ReqPart)
    (hmem : Effect.genContent m parts ∈ (runPipeline env req d).2) :
    ∃ purl pp fx1, normalizeAsset env req = (.ok (purl, pp), fx1) ∧
      (Effect.genContent m parts ∈ (composePrompt env req pp).2 ∨
       ∃ json fx2, composePrompt env req pp = (.ok json, fx2) ∧
         Effect.genContent m parts ∈ (generateCreative env req json pp).2) := by
  have hnog : ∀ e ∈ (normalizeAsset env req).2, isGenEffect e = false :=
    normalizeAsset_noGen env req
  rcases hn : normalizeAsset env req with ⟨r1, fx1⟩
  have hnog1 : Effect.genContent m parts ∉ fx1 := by
    intro hin
    have h0 := hnog (Effect.genContent m parts) (by rw [hn]; exact hin)
    simp [isGenEffect] at h0
  cases r1 with
  | error e1 =>
    rw [runPipeline_eq1 env req d e1 fx1 hn] at hmem
    exact absurd hmem hnog1
  | ok pr =>
    obtain ⟨purl, pp⟩ := pr
    rcases hc : composePrompt env req pp with ⟨r2, fx2⟩
    have hin2 : Effect.genContent m parts ∈ fx2 →
        Effect.genContent m parts ∈ (composePrompt env req pp).2 := by
      intro hin
      rw [hc]
      exact hin
    cases r2 with
    | error e2 =>
      rw [runPipeline_eq2 env req d e2 purl pp fx1 fx2 hn hc] at hmem
      rcases List.mem_append.mp hmem with h1 | h1
      · exact absurd h1 hnog1
      · exact ⟨purl, pp, fx1, rfl, Or.inl (hin2 h1)⟩
    | ok json =>
      rcases hg : generateCreative env req json pp with ⟨r3, fx3⟩
      have hin3 : Effect.genContent m parts ∈ fx3 →
          Effect.genContent m parts ∈ (generateCreative env req json pp).2 := by
        intro hin
        rw [hg]
        exact hin
      cases r3 with
      | error e3 =>
        rw [runPipeline_eq3 env req d e3 purl pp json fx1 fx2 fx3 hn hc hg] at hmem
        rcases List.mem_append.mp hmem with h1 | h1
        · rcases List.mem_append.mp h1 with h2 | h2
          · exact absurd h2 hnog1
          · exact ⟨purl, pp, fx1, rfl, Or.inl (hin2 h2)⟩
        · exact ⟨purl, pp, fx1, rfl, Or.inr ⟨json, fx2, hc, hin3 h1⟩⟩
      | ok gen =>
        rcases hp : publishResult env d json purl gen with ⟨r4, fx4⟩
        have hnog4 : Effect.genContent m parts ∉ fx4 := by
          intro hin
          have h0 := publishResult_noGen env d json purl gen m parts
          rw [hp] at h0
          exact h0 hin
        rw [runPipeline_eq4 env req d purl pp json gen r4 fx1 fx2 fx3 fx4 hn hc hg hp] at hmem
        rcases List.mem_append.mp hmem with h1 | h1
        · rcases List.mem_append.mp h1 with h2 | h2
          · rcases List.mem_append.mp h2 with h3 | h3
            · exact absurd h3 hnog1
            · exact ⟨purl, pp, fx1, rfl, Or.inl (hin2 h3)⟩
          · exact ⟨purl, pp, fx1, rfl, Or.inr ⟨json, fx2, hc, hin3 h2⟩⟩
        · exact absurd h1 hnog4

/-- Model invocations recorded in the full handler trace all come from the
try block. -/
theorem POST_gen_mem (env : Env) (req : Request) (m : Str) (parts : List ReqPart)
    (hmem : Effect.genContent m parts ∈ (POST env req).2) :
    Effect.genContent m parts ∈ (runPipeline env req (natToStr env.nowDocId)).2 := by
  by_cases hud : env.userDocs.isEmpty
  · simp [POST, hud] at hmem
  · have hud' : env.userDocs.isEmpty = false := by simpa using hud
    rcases hr : runPipeline env req (natToStr env.nowDocId) with ⟨res, fx⟩
    cases res with
    | ok url =>
      have htr : (POST env req).2 = Effect.queryUsers req.userEmail ::
          Effect.createJob (natToStr env.nowDocId)
            { userEmail := req.userEmail, status := chars "pending",
              description := req.description, size := req.size,
              docId := natToStr env.nowDocId } :: fx := by
        simp [POST, hud', hr]
      rw [htr] at hmem
      simpa using hmem
    | error e =>
      have htr : (POST env req).2 = Effect.queryUsers req.userEmail ::
          Effect.createJob (natToStr env.nowDocId)
            { userEmail := req.userEmail, status := chars "pending",
              description := req.description, size := req.size,
              docId := natToStr env.nowDocId } ::
          (fx ++ [Effect.deleteJob (natToStr env.nowDocId)]) := by
        simp [POST, hud', hr]
      rw [htr] at hmem
      simpa using hmem

/-- C8: every first-call invocation in a run's trace carries the avatar
template exactly when `avatar` has length > 2 (else the plain template) plus
the product part; every second-call invocation carries the avatar image part,
fetched from the avatar URL, exactly when `avatar` has length > 2, and no
avatar part otherwise. -/
theorem claimC8 (env : Env) (req : Request) :
    (∀ parts, Effect.genContent (chars "gemini-2.0-flash") parts ∈ (POST env req).2 →
      ∃ pp, parts = [ReqPart.ptext (some (.jstr
        (if avatarUsable req then chars AVATAR_PROMPT else chars PROMPT))),
        ReqPart.pinline pp]) ∧
    (∀ parts, Effect.genContent (chars "gemini-2.5-flash-image") parts ∈ (POST env req).2 →
      ∃ t pp,
        (avatarUsable req = true →
          ∃ avp, urlToInlineData (env.fetch (req.avatar.getD [])) (req.avatar.getD []) = .ok avp ∧
            parts = [ReqPart.ptext t, ReqPart.pinline pp, ReqPart.pinline avp]) ∧
        (avatarUsable req = false →
          parts = [ReqPart.ptext t, ReqPart.pinline pp])) := by
  have hmodels : chars "gemini-2.0-flash" ≠ chars "gemini-2.5-flash-image" := by decide
  constructor
  · intro parts hmem
    obtain ⟨purl, pp, fx1, hn, hcase⟩ :=
      runPipeline_gen_mem env req (natToStr env.nowDocId) _ parts (POST_gen_mem env req _ parts hmem)
    rcases hcase with h1 | ⟨json, fx2, hc, h1⟩
    · obtain ⟨-, hparts⟩ := composePrompt_gen_mem env req pp _ parts h1
      exact ⟨pp, hparts⟩
    · obtain ⟨hm, -⟩ := generateCreative_gen_mem env req json pp _ parts h1
      exact absurd hm hmodels
  · intro parts hmem
    obtain ⟨purl, pp, fx1, hn, hcase⟩ :=
      runPipeline_gen_mem env req (natToStr env.nowDocId) _ parts (POST_gen_mem env req _ parts hmem)
    rcases hcase with h1 | ⟨json, fx2, hc, h1⟩
    · obtain ⟨hm, -⟩ := composePrompt_gen_mem env req pp _ parts h1
      exact absurd hm.symm hmodels
    · obtain ⟨-, hshape⟩ := generateCreative_gen_mem env req json pp _ parts h1
      rcases hshape with ⟨hav, hparts⟩ | ⟨hav, avp, hfetch, hparts⟩
      · exact ⟨jsonGetOpt json (chars "textToImage"), pp,
          fun h => absurd hav (by simp [h]), fun _ => hparts⟩
      · exact ⟨jsonGetOpt json (chars "textToImage"), pp,
          fun _ => ⟨avp, hfetch, hparts⟩, fun h => absurd hav (by simp [h])⟩

/-- Witness for C8: the avatar run attaches the fetched avatar part to the
second call, the plain run uses the plain template. -/
theorem claimC8_witness :
    (∃ pp, [ReqPart.ptext (some (.jstr (chars PROMPT))),
        ReqPart.pinline { data := base64Encode (List.replicate 25 7),
                          mimeType := chars "image/jpeg" }] =
      [ReqPart.ptext (some (.jstr
        (if avatarUsable reqFile then chars AVATAR_PROMPT else chars PROMPT))),
        ReqPart.pinline pp]) ∧
    (∃ t pp,
      (avatarUsable reqUrlAvatar = true →
        ∃ avp, urlToInlineData (envOk.fetch (reqUrlAvatar.avatar.getD []))
            (reqUrlAvatar.avatar.getD []) = .ok avp ∧
          [ReqPart.ptext (some (.jstr (chars "T"))),
           ReqPart.pinline { data := base64Encode (List.replicate 30 1),
                             mimeType := chars "image/webp" },
           ReqPart.pinline { data := base64Encode (List.replicate 30 1),
                             mimeType := chars "image/png" }] =
            [ReqPart.ptext t, ReqPart.pinline pp, ReqPart.pinline avp]) ∧
      (avatarUsable reqUrlAvatar = false →
        [ReqPart.ptext (some (.jstr (chars "T"))),
         ReqPart.pinline { data := base64Encode (List.replicate 30 1),
                           mimeType := chars "image/webp" },
         ReqPart.pinline { data := base64Encode (List.replicate 30 1),
                           mimeType := chars "image/png" }] =
          [ReqPart.ptext t, ReqPart.pinline pp])) :=
  ⟨(claimC8 envOk reqFile).1
      [ReqPart.ptext (some (.jstr (chars PROMPT))),
       ReqPart.pinline { data := base64Encode (List.replicate 25 7),
                         mimeType := chars "image/jpeg" }] (by decide),
   (claimC8 envOk reqUrlAvatar).2
      [ReqPart.ptext (some (.jstr (chars "T"))),
       ReqPart.pinline { data := base64Encode (List.replicate 30 1),
                         mimeType := chars "image/webp" },
       ReqPart.pinline { data := base64Encode (List.replicate 30 1),
                         mimeType := chars "image/png" }] (by decide)⟩

/-! ## C7 — extractJson: direct parse, brace extraction, failure modes -/

/-- First index over an append whose left part misses the character. -/
theorem firstIdxOf_append_not_mem (c : Char) (a b : Str) (h : c ∉ a) :
    firstIdxOf c (a ++ b) = (firstIdxOf c b).map (· + a.length) := by
  induction a with
  | nil => cases h0 : firstIdxOf c b <;> simp [h0]
  | cons x xs ih =>
    have hx : ¬ x = c := by
      intro he
      exact h (by simp [he])
    have hxs : c ∉ xs := fun hin => h (by simp [hin])
    rw [List.cons_append, firstIdxOf, if_neg hx, ih hxs]
    cases h0 : firstIdxOf c b <;> simp [h0]
    omega

/-- First index at a matching head. -/
theorem firstIdxOf_cons_self (c : Char) (xs : Str) :
    firstIdxOf c (c :: xs) = some 0 := by
  rw [firstIdxOf, if_pos rfl]

/-- A list whose last element is known splits off that element. -/
theorem exists_append_of_getLast (l : Str) (d : Char) (h : l.getLast? = some d) :
    ∃ ys, l = ys ++ [d] := by
  induction l with
  | nil => simp at h
  | cons x xs ih =>
    cases xs with
    | nil =>
      simp [List.getLast?] at h
      exact ⟨[], by simp [h]⟩
    | cons y ys =>
      rw [List.getLast?_cons_cons] at h
      obtain ⟨zs, hz⟩ := ih h
      exact ⟨x :: zs, by simp [hz]⟩

/-- The regex model on a brace-delimited body surrounded by noise that is
brace-free on the relevant sides returns exactly the body. -/
theorem extractJsonSub_eq (p t q : Str)
    (hp1 : '{' ∉ p) (hq2 : '}' ∉ q)
    (ht1 : t.head? = some '{') (ht2 : t.getLast? = some '}') (hlen : 2 ≤ t.length) :
    extractJsonSub (p ++ t ++ q) = some t := by
  obtain ⟨t1, ht1'⟩ : ∃ t1, t = '{' :: t1 := by
    cases t with
    | nil => simp at ht1
    | cons c t1 =>
      simp at ht1
      exact ⟨t1, by rw [ht1]⟩
  obtain ⟨ys, hys⟩ := exists_append_of_getLast t '}' ht2
  have hi : firstIdxOf '{' (p ++ t ++ q) = some p.length := by
    rw [List.append_assoc, firstIdxOf_append_not_mem _ _ _ hp1, ht1']
    rw [List.cons_append, firstIdxOf_cons_self]
    simp
  have hq2' : '}' ∉ q.reverse := by simpa using hq2
  have hrev : (p ++ t ++ q).reverse = q.reverse ++ ('}' :: (ys.reverse ++ p.reverse)) := by
    rw [hys]
    simp
  have hj : firstIdxOf '}' ((p ++ t ++ q).reverse) = some q.length := by
    rw [hrev, firstIdxOf_append_not_mem _ _ _ hq2', firstIdxOf_cons_self]
    simp
  have hlen2 : (p ++ t ++ q).length = p.length + t.length + q.length := by
    simp only [List.length_append]
  have hcond : p.length < p.length + t.length + q.length - 1 - q.length := by omega
  have harith : p.length + t.length + q.length - 1 - q.length - p.length + 1 = t.length := by
    omega
  simp only [extractJsonSub, hi, hj, hlen2]
  rw [if_pos hcond, harith, List.append_assoc, List.drop_left, List.take_left]

/-- C7 (amended): `extractJson` first attempts a direct `JSON.parse` and
passes its value through; on parse failure with no brace-delimited substring
it throws "No JSON found in model output"; on parse failure with a match it
returns `JSON.parse` of the match, whose own failure is a `SyntaxError`, not
the "No JSON found" error; consequently a JSON object surrounded by
brace-free prose on the left (of `{`) and right (of `}`) is still parsed
correctly. -/
theorem claimC7 :
    (∀ text v, jsonParse text = some v → extractJson text = .ok v) ∧
    (∀ text, jsonParse text = none → extractJsonSub text = none →
      extractJson text = .error .noJsonFound) ∧
    (∀ text sub, jsonParse text = none → extractJsonSub text = some sub →
      extractJson text = (match jsonParse sub with
        | some v => Except.ok v
        | none => Except.error PipeError.syntaxError)) ∧
    (∀ p t q v, '{' ∉ p → '}' ∉ q →
      t.head? = some '{' → t.getLast? = some '}' → 2 ≤ t.length →
      jsonParse t = some v → jsonParse (p ++ t ++ q) = none →
      extractJson (p ++ t ++ q) = .ok v) := by
  refine ⟨?_, ?_, ?_, ?_⟩
  · intro text v h
    simp [extractJson, h]
  · intro text h1 h2
    simp [extractJson, h1, h2]
  · intro text sub h1 h2
    simp [extractJson, h1, h2]
  · intro p t q v hp1 hq2 ht1 ht2 hlen hparse hfail
    have hsub := extractJsonSub_eq p t q hp1 hq2 ht1 ht2 hlen
    have hfail' : jsonParse (p ++ (t ++ q)) = none := by
      rw [← List.append_assoc]
      exact hfail
    have hsub' : extractJsonSub (p ++ (t ++ q)) = some t := by
      rw [← List.append_assoc]
      exact hsub
    simp [extractJson, hfail, hfail', hsub, hsub', hparse]

/-- Witness for C7: a JSON object inside prose parses to its value. -/
theorem claimC7_witness :
    extractJson (chars "Sure: " ++ chars "\x7b\"a\":1\x7d" ++ chars " ok") =
      .ok (Json.jobj [(chars "a", Json.jnum (chars "1"))]) :=
  claimC7.2.2.2 (chars "Sure: ") (chars "\x7b\"a\":1\x7d") (chars " ok")
    (Json.jobj [(chars "a", Json.jnum (chars "1"))])
    (by decide) (by decide) (by decide) (by decide) (by decide) (by decide) (by decide)

/-- Counterexample to C7 as stated: when the extracted brace-delimited
substring is not valid JSON, `extractJson` throws the `SyntaxError` of the
second `JSON.parse`, not the `new Error("No JSON found in model output")`
the claim names for that case. -/
theorem claimC7_counterexample :
    extractJson (chars "\x7bbad\x7d") = .error PipeError.syntaxError ∧
    (Except.error PipeError.syntaxError : Except PipeError Json) ≠
      .error PipeError.noJsonFound := by
  exact ⟨rfl, by simp⟩

/-! ## String lemmas towards C6: whitespace, trimming, first-occurrence
replacement -/

/-- JSON whitespace is also `trim` whitespace. -/
theorem isTrimWs_of_isJsonWs (c : Char) (h : isJsonWs c = true) : isTrimWs c = true := by
  simp [isJsonWs] at h
  obtain ((rfl | rfl) | rfl) | rfl := h <;> rfl

/-- JSON whitespace cannot extend a number lexeme. -/
theorem not_isNumChar_of_isJsonWs (c : Char) (h : isJsonWs c = true) : isNumChar c = false := by
  simp [isJsonWs] at h
  obtain ((rfl | rfl) | rfl) | rfl := h <;> rfl

/-- `dropWhile` over a block it accepts wholesale. -/
theorem dropWhile_append_all {α : Type} (p : α → Bool) (a b : List α)
    (h : ∀ c ∈ a, p c = true) :
    (a ++ b).dropWhile p = b.dropWhile p := by
  induction a with
  | nil => rfl
  | cons x xs ih =>
    have hx : p x = true := h x (by simp)
    simp only [List.cons_append, List.dropWhile_cons, hx, if_true]
    exact ih (fun c hc => h c (by simp [hc]))

/-- `dropWhile` stops at a rejected head. -/
theorem dropWhile_cons_false {α : Type} (p : α → Bool) (c : α) (b : List α)
    (h : p c = false) : (c :: b).dropWhile p = c :: b := by
  simp [List.dropWhile_cons, h]

/-- Leading JSON whitespace is invisible to `skipWs`. -/
theorem skipWs_append_ws (a b : Str) (h : ∀ c ∈ a, isJsonWs c = true) :
    skipWs (a ++ b) = skipWs b :=
  dropWhile_append_all isJsonWs a b h

/-- `trimL` over a leading whitespace block. -/
theorem trimL_append_ws (a b : Str) (h : ∀ c ∈ a, isTrimWs c = true) :
    trimL (a ++ b) = trimL b :=
  dropWhile_append_all isTrimWs a b h

/-- `trimR` drops a trailing whitespace block and stops at a non-whitespace
last character. -/
theorem trimR_append_ws (x w : Str) (d : Char)
    (hw : ∀ c ∈ w, isTrimWs c = true)
    (hx : x.getLast? = some d) (hd : isTrimWs d = false) :
    trimR (x ++ w) = x := by
  obtain ⟨ys, rfl⟩ := exists_append_of_getLast x d hx
  rw [trimR, List.reverse_append]
  rw [dropWhile_append_all isTrimWs w.reverse _ (fun c hc => hw c (by simp at hc; exact hc))]
  rw [List.reverse_append]
  simp only [List.reverse_cons, List.reverse_nil, List.nil_append, List.singleton_append]
  rw [dropWhile_cons_false isTrimWs d _ hd]
  simp

/-- `trimR` keeps a list whose last character is not whitespace. -/
theorem trimR_last (x : Str) (d : Char) (hx : x.getLast? = some d)
    (hd : isTrimWs d = false) : trimR x = x := by
  have h := trimR_append_ws x [] d (by simp) hx hd
  simpa using h

/-- `trimL` keeps a list whose head is not whitespace. -/
theorem trimL_head (x : Str) (d : Char) (hx : x.head? = some d)
    (hd : isTrimWs d = false) : trimL x = x := by
  cases x with
  | nil => rfl
  | cons c cs =>
    have hx' : c = d := by simpa using hx
    subst hx'
    exact dropWhile_cons_false isTrimWs c cs hd

/-- `trim` keeps a list with non-whitespace ends. -/
theorem trim_of_ends (x : Str) (c d : Char) (hc : x.head? = some c)
    (hcw : isTrimWs c = false) (hd : x.getLast? = some d)
    (hdw : isTrimWs d = false) : trim x = x := by
  rw [trim, trimL_head x c hc hcw, trimR_last x d hd hdw]

/-- `replaceFirst` at an immediate match. -/
theorem replaceFirst_prefix (pat repl rest : Str) (hne : pat ≠ []) :
    replaceFirst pat repl (pat ++ rest) = repl ++ rest := by
  cases pat with
  | nil => exact absurd rfl hne
  | cons c cs =>
    have hpre : (c :: cs).isPrefixOf (c :: cs ++ rest) = true := by
      rw [List.isPrefixOf_iff_prefix]
      exact ⟨rest, by simp⟩
    rw [List.cons_append, replaceFirst, if_pos (show ((c :: cs).isPrefixOf (c :: (cs ++ rest))) = true by rw [← List.cons_append]; exact hpre)]
    have : ((c :: cs) ++ rest).drop (c :: cs).length = rest := List.drop_left _ _
    rw [← List.cons_append, this]

/-- `replaceFirst` skips a position where the pattern does not match. -/
theorem replaceFirst_cons_neg (pat repl : Str) (c : Char) (cs : Str)
    (h : pat.isPrefixOf (c :: cs) = false) :
    replaceFirst pat repl (c :: cs) = c :: replaceFirst pat repl cs := by
  rw [replaceFirst, if_neg (by simp [h])]

/-- A string containing an explicit occurrence satisfies `occursB`. -/
theorem occursB_nil_pat (s : Str) : occursB [] s = true := by
  cases s with
  | nil => rfl
  | cons c cs => rw [occursB]; simp [List.isPrefixOf]

theorem occursB_of_decomp (pat l r : Str) : occursB pat (l ++ pat ++ r) = true := by
  induction l with
  | nil =>
    cases pat with
    | nil => exact occursB_nil_pat _
    | cons c cs =>
      have hpre : (c :: cs).isPrefixOf ((c :: cs) ++ r) = true := by
        rw [List.isPrefixOf_iff_prefix]
        exact ⟨r, rfl⟩
      simp only [List.nil_append, List.cons_append]
      rw [occursB]
      rw [List.cons_append] at hpre
      simp [hpre]
  | cons x xs ih =>
    rw [List.cons_append, List.cons_append, occursB]
    have h0 : occursB pat (xs ++ pat ++ r) = true := ih
    rw [List.append_assoc] at h0
    simp [h0]

/-- A satisfied `occursB` yields an explicit occurrence. -/
theorem occursB_decomp (pat s : Str) (h : occursB pat s = true) :
    ∃ l r, s = l ++ pat ++ r := by
  induction s with
  | nil =>
    rw [occursB] at h
    have : pat = [] := by simpa using h
    exact ⟨[], [], by simp [this]⟩
  | cons c cs ih =>
    rw [occursB] at h
    rcases Bool.or_eq_true_iff.mp h with h1 | h1
    · rw [List.isPrefixOf_iff_prefix] at h1
      obtain ⟨r, hr⟩ := h1
      exact ⟨[], r, by simp [hr.symm]⟩
    · obtain ⟨l, r, hlr⟩ := ih h1
      exact ⟨c :: l, r, by simp [hlr]⟩

/-- No occurrence anywhere: `replaceFirst` is the identity. -/
theorem replaceFirst_no_occ (pat repl s : Str) (h : occursB pat s = false) :
    replaceFirst pat repl s = s := by
  induction s with
  | nil =>
    rw [occursB] at h
    simp [replaceFirst, h]
  | cons c cs ih =>
    rw [occursB] at h
    obtain ⟨h1, h2⟩ := Bool.or_eq_false_iff.mp h
    rw [replaceFirst_cons_neg pat repl c cs h1, ih h2]

/-- Occurrence of a longer pattern forces occurrence of any prefix of it. -/
theorem occursB_false_of_prefix (p1 p2 s : Str) (hpre : p1 <+: p2)
    (h : occursB p1 s = false) : occursB p2 s = false := by
  cases ho : occursB p2 s
  · rfl
  · obtain ⟨l, r, hlr⟩ := occursB_decomp p2 s ho
    obtain ⟨m, hm⟩ := hpre
    rw [← hm] at hlr
    have : s = l ++ p1 ++ (m ++ r) := by simp [hlr]
    rw [this, occursB_of_decomp] at h
    exact h

/-- `occursB` is monotone down to infixes. -/
theorem occursB_false_infix (pat s' s : Str) (hinf : s' <:+: s)
    (h : occursB pat s = false) : occursB pat s' = false := by
  cases ho : occursB pat s'
  · rfl
  · obtain ⟨l, r, hlr⟩ := occursB_decomp pat s' ho
    obtain ⟨a, b, hab⟩ := hinf
    rw [← hab, hlr] at h
    have : l ++ pat ++ r ≠ [] → True := fun _ => trivial
    have hs : a ++ (l ++ pat ++ r) ++ b = (a ++ l) ++ pat ++ (r ++ b) := by simp
    rw [hs, occursB_of_decomp] at h
    exact h

/-- A pattern that misses a block and contains no newline cannot match at
the block's boundary with a newline. -/
theorem isPrefixOf_false_append_nl (pat x w' : Str) (hnl : '\n' ∉ pat)
    (hx : pat.isPrefixOf x = false) :
    pat.isPrefixOf (x ++ '\n' :: w') = false := by
  cases hcon : pat.isPrefixOf (x ++ '\n' :: w')
  · rfl
  · exfalso
    have hp : pat <+: (x ++ '\n' :: w') := List.isPrefixOf_iff_prefix.mp hcon
    by_cases hle : pat.length ≤ x.length
    · have hxp : x <+: (x ++ '\n' :: w') := ⟨'\n' :: w', rfl⟩
      have : pat <+: x := List.prefix_of_prefix_length_le hp hxp hle
      rw [← List.isPrefixOf_iff_prefix] at this
      rw [this] at hx
      exact Bool.true_eq_false.mp hx
    · obtain ⟨r, hr⟩ := hp
      have hxpat : x <+: pat := by
        have hxp : x <+: (x ++ '\n' :: w') := ⟨'\n' :: w', rfl⟩
        have hpw : pat <+: (x ++ '\n' :: w') := ⟨r, hr⟩
        exact List.prefix_of_prefix_length_le hxp hpw (by omega)
      obtain ⟨s, hs⟩ := hxpat
      have hsr : s ++ r = '\n' :: w' := by
        have : (x ++ s) ++ r = x ++ '\n' :: w' := by rw [hs, hr]
        rw [List.append_assoc] at this
        exact List.append_cancel_left this
      cases s with
      | nil =>
        have : pat.length = x.length := by rw [← hs]; simp
        omega
      | cons a s' =>
        have ha : a = '\n' := by
          have := hsr
          rw [List.cons_append] at this
          exact (List.cons.injEq .. ▸ this).1
        have : '\n' ∈ pat := by
          rw [← hs, ha]
          simp
        exact hnl this

/-- `replaceFirst` walks over a block with no occurrence, across a newline
boundary, and continues on the far side. -/
theorem replaceFirst_walk (pat repl t w : Str) (hne : pat ≠ [])
    (hnl : '\n' ∉ pat) (h : occursB pat t = false) :
    replaceFirst pat repl (t ++ '\n' :: w) = t ++ '\n' :: replaceFirst pat repl w := by
  induction t with
  | nil =>
    have hx : pat.isPrefixOf [] = false := by
      cases pat with
      | nil => exact absurd rfl hne
      | cons c cs => rfl
    have hpre := isPrefixOf_false_append_nl pat [] w hnl hx
    simp only [List.nil_append] at hpre ⊢
    rw [replaceFirst_cons_neg pat repl '\n' w hpre]
  | cons c t' ih =>
    rw [occursB] at h
    obtain ⟨h1, h2⟩ := Bool.or_eq_false_iff.mp h
    have hpre := isPrefixOf_false_append_nl pat (c :: t') w hnl h1
    rw [List.cons_append] at hpre ⊢
    rw [replaceFirst_cons_neg pat repl c _ hpre, ih h2]
    simp

/-! ## Parser lemmas towards C6: a successful parse depends only on the
consumed prefix, and swapping the unconsumed suffix is harmless -/

/-- `skipWs` splits its input into an all-whitespace prefix and the result. -/
theorem skipWs_decomp (cs ds : Str) (h : skipWs cs = ds) :
    ∃ w, cs = w ++ ds ∧ ∀ x ∈ w, isJsonWs x = true := by
  refine ⟨cs.takeWhile isJsonWs, ?_, fun x hx => List.mem_takeWhile_imp hx⟩
  rw [← h, skipWs]
  exact (List.takeWhile_append_dropWhile isJsonWs cs).symm

/-- The head that `skipWs` stops at is not whitespace. -/
theorem skipWs_head_false (cs : Str) (c : Char) (r0 : Str)
    (h : skipWs cs = c :: r0) : isJsonWs c = false := by
  induction cs with
  | nil => simp [skipWs] at h
  | cons x xs ih =>
    rw [skipWs, List.dropWhile_cons] at h
    by_cases hx : isJsonWs x = true
    · rw [if_pos hx] at h
      exact ih h
    · rw [if_neg hx] at h
      cases h
      simpa using hx

/-- Evaluate `skipWs` over a whitespace block up to a non-whitespace head. -/
theorem skipWs_ws_cons (w : Str) (c : Char) (X : Str)
    (hw : ∀ x ∈ w, isJsonWs x = true) (hc : isJsonWs c = false) :
    skipWs (w ++ c :: X) = c :: X := by
  rw [skipWs_append_ws w _ hw, skipWs]
  exact dropWhile_cons_false _ _ _ hc

/-- The suffix-swap side condition: after a parsed number, the replacement
suffix must not start with a character that could extend the lexeme; other
values end at an unambiguous delimiter and need no condition. -/
def numOk : Json → Str → Prop
  | Json.jnum _, r2 => r2 = [] ∨ ∃ c cs, r2 = c :: cs ∧ isNumChar c = false
  | _, _ => True

theorem numOk_nil (v : Json) : numOk v [] := by
  cases v <;> first | trivial | exact Or.inl rfl

theorem numOk_of_head (v : Json) (c : Char) (l : Str) (hc : isNumChar c = false) :
    numOk v (c :: l) := by
  cases v <;> first | trivial | exact Or.inr ⟨c, l, rfl, hc⟩

/-- The shape of the consumed prefix, per parser job: a value's prefix is
whitespace then a significant head that is never `]`; a continuation's prefix
starts with a character that cannot extend a number lexeme. -/
def preShape : PJob → Str → Prop
  | PJob.val _, pre => ∃ w c tl, pre = w ++ c :: tl ∧ (∀ x ∈ w, isJsonWs x = true) ∧
      isJsonWs c = false ∧ c ≠ ']'
  | PJob.mem _ _, pre => ∃ c tl, pre = c :: tl ∧ isNumChar c = false
  | PJob.arr _ _, pre => ∃ c tl, pre = c :: tl ∧ isNumChar c = false

/-- The input component of a parser job. -/
def jobInput : PJob → Str
  | PJob.val cs => cs
  | PJob.mem _ cs => cs
  | PJob.arr _ cs => cs

/-- Replace the input component of a parser job. -/
def jobWith : PJob → Str → PJob
  | PJob.val _, cs => PJob.val cs
  | PJob.mem a _, cs => PJob.mem a cs
  | PJob.arr a _, cs => PJob.arr a cs

/-- A whitespace block followed by a non-number character starts with a
character that cannot extend a number lexeme. -/
theorem head_notNum_of_ws_block (w : Str) (c : Char) (tl : Str)
    (hw : ∀ x ∈ w, isJsonWs x = true) (hc : isNumChar c = false) :
    ∃ c0 tl0, w ++ c :: tl = c0 :: tl0 ∧ isNumChar c0 = false := by
  cases w with
  | nil => exact ⟨c, tl, rfl, hc⟩
  | cons x xs =>
    exact ⟨x, xs ++ c :: tl, by simp,
      not_isNumChar_of_isJsonWs x (hw x (by simp))⟩

/-- The string-literal scanner consumes a determined prefix: a success on
`cs` splits `cs` into that prefix and the leftover, and re-running the
scanner on the prefix with any other suffix succeeds identically. -/
theorem parseStrBody_split (cs : Str) : ∀ s r, parseStrBody cs = some (s, r) →
    ∃ pre, cs = pre ++ r ∧ ∀ X, parseStrBody (pre ++ X) = some (s, X) := by
  induction cs using parseStrBody.induct with
  | case1 =>
    intro s r h
    rw [parseStrBody.eq_def] at h
    simp at h
  | case2 cs =>
    intro s r h
    rw [parseStrBody.eq_def] at h
    simp only [show (('\"' : Char) = '\"') = True from by simp, if_true, ite_true,
      Option.some.injEq, Prod.mk.injEq] at h
    obtain ⟨hs, hr⟩ := h
    refine ⟨['"'], by simp [hr], fun X => ?_⟩
    rw [List.singleton_append, parseStrBody.eq_def]
    simp only [show (('\"' : Char) = '\"') = True from by simp, if_true, ite_true, ← hs]
  | case3 =>
    intro s r h
    rw [parseStrBody.eq_def] at h
    simp at h
  | case4 h1 h2 h3 h4 r2 a b cv d hv4 hv3 hv2 hv1 s0 r3 hsub hne ih =>
    intro s r h
    rw [parseStrBody.eq_def] at h
    simp only [hv1, hv2, hv3, hv4, hsub,
      show (('\\' : Char) = '\"') = False from by simp,
      show (('\\' : Char) = '\\') = True from by simp,
      show (('u' : Char) = 'u') = True from by simp,
      if_true, if_false, ite_true, ite_false, Option.some.injEq, Prod.mk.injEq] at h
    obtain ⟨hs, hr⟩ := h
    obtain ⟨pre0, hpre0, hswap0⟩ := ih s0 r3 hsub
    refine ⟨'\\' :: 'u' :: h1 :: h2 :: h3 :: h4 :: pre0, by simp [hpre0, hr], fun X => ?_⟩
    rw [List.cons_append, List.cons_append, List.cons_append, List.cons_append,
      List.cons_append, List.cons_append, parseStrBody.eq_def]
    simp only [hv1, hv2, hv3, hv4, List.append_eq, hswap0 X,
      show (('\\' : Char) = '\"') = False from by simp,
      show (('\\' : Char) = '\\') = True from by simp,
      show (('u' : Char) = 'u') = True from by simp,
      if_true, if_false, ite_true, ite_false, ← hs]
  | case5 h1 h2 h3 h4 r2 a b cv d hv4 hv3 hv2 hv1 hsub hne ih =>
    intro s r h
    rw [parseStrBody.eq_def] at h
    simp only [hv1, hv2, hv3, hv4, hsub,
      show (('\\' : Char) = '\"') = False from by simp,
      show (('\\' : Char) = '\\') = True from by simp,
      show (('u' : Char) = 'u') = True from by simp,
      if_true, if_false, ite_true, ite_false] at h
    exact Option.noConfusion h
  | case6 h1 h2 h3 h4 r2 hfail hne =>
    intro s r h
    rw [parseStrBody.eq_def] at h
    simp only [show (('\\' : Char) = '\"') = False from by simp,
      show (('\\' : Char) = '\\') = True from by simp,
      show (('u' : Char) = 'u') = True from by simp,
      if_true, if_false, ite_true, ite_false] at h
    rcases hv1 : hexVal h1 with _ | a
    all_goals rcases hv2 : hexVal h2 with _ | b
    all_goals rcases hv3 : hexVal h3 with _ | cv
    all_goals rcases hv4 : hexVal h4 with _ | d
    all_goals first
      | exact (hfail a b cv d hv1 hv2 hv3 hv4).elim
      | exact Option.noConfusion h
  | case7 r hshort hne =>
    intro s r' h
    rw [parseStrBody.eq_def] at h
    simp only [show (('\\' : Char) = '\"') = False from by simp,
      show (('\\' : Char) = '\\') = True from by simp,
      show (('u' : Char) = 'u') = True from by simp,
      if_true, if_false, ite_true, ite_false] at h
    rcases r with _ | ⟨a, _ | ⟨b, _ | ⟨c, _ | ⟨d, r2⟩⟩⟩⟩
    · exact Option.noConfusion h
    · exact Option.noConfusion h
    · exact Option.noConfusion h
    · exact Option.noConfusion h
    · exact (hshort a b c d r2 rfl).elim
  | case8 e r hu c2 hesc s0 r3 hsub hne ih =>
    intro s r' h
    rw [parseStrBody.eq_def] at h
    simp only [hesc, hsub, eq_false hu,
      show (('\\' : Char) = '\"') = False from by simp,
      show (('\\' : Char) = '\\') = True from by simp,
      if_true, if_false, ite_true, ite_false, Option.some.injEq, Prod.mk.injEq] at h
    obtain ⟨hs, hr⟩ := h
    obtain ⟨pre0, hpre0, hswap0⟩ := ih s0 r3 hsub
    refine ⟨'\\' :: e :: pre0, by simp [hpre0, hr], fun X => ?_⟩
    rw [List.cons_append, List.cons_append, parseStrBody.eq_def]
    simp only [hesc, List.append_eq, hswap0 X, eq_false hu,
      show (('\\' : Char) = '\"') = False from by simp,
      show (('\\' : Char) = '\\') = True from by simp,
      if_true, if_false, ite_true, ite_false, ← hs]
  | case9 e r hu c2 hesc hsub hne ih =>
    intro s r' h
    rw [parseStrBody.eq_def] at h
    simp only [hesc, hsub, eq_false hu,
      show (('\\' : Char) = '\"') = False from by simp,
      show (('\\' : Char) = '\\') = True from by simp,
      if_true, if_false, ite_true, ite_false] at h
    exact Option.noConfusion h
  | case10 e r hu hesc hne =>
    intro s r' h
    rw [parseStrBody.eq_def] at h
    simp only [hesc, eq_false hu,
      show (('\\' : Char) = '\"') = False from by simp,
      show (('\\' : Char) = '\\') = True from by simp,
      if_true, if_false, ite_true, ite_false] at h
    exact Option.noConfusion h
  | case11 c cs hq hbs hctl =>
    intro s r h
    rw [parseStrBody.eq_def] at h
    simp only [eq_false hq, eq_false hbs, eq_true hctl,
      if_true, if_false, ite_true, ite_false] at h
    exact Option.noConfusion h
  | case12 c cs hq hbs hctl s0 r3 hsub ih =>
    intro s r h
    rw [parseStrBody.eq_def] at h
    simp only [hsub, eq_false hq, eq_false hbs, eq_false hctl,
      if_true, if_false, ite_true, ite_false, Option.some.injEq, Prod.mk.injEq] at h
    obtain ⟨hs, hr⟩ := h
    obtain ⟨pre0, hpre0, hswap0⟩ := ih s0 r3 hsub
    refine ⟨c :: pre0, by simp [hpre0, hr], fun X => ?_⟩
    rw [List.cons_append, parseStrBody.eq_def]
    simp only [List.append_eq, hswap0 X, eq_false hq, eq_false hbs, eq_false hctl,
      if_true, if_false, ite_true, ite_false, ← hs]
  | case13 c cs hq hbs hctl hsub ih =>
    intro s r h
    rw [parseStrBody.eq_def] at h
    simp only [hsub, eq_false hq, eq_false hbs, eq_false hctl,
      if_true, if_false, ite_true, ite_false] at h
    exact Option.noConfusion h

/-- The key-colon scanner consumes a determined prefix of the known shape
(whitespace, an opening quote, the rest), and re-running it on the prefix
with any other suffix succeeds identically. -/
theorem parseKeyColon_split (cs k r : Str) (h : parseKeyColon cs = some (k, r)) :
    ∃ w1 tl, cs = (w1 ++ '"' :: tl) ++ r ∧ (∀ x ∈ w1, isJsonWs x = true) ∧
      ∀ X, parseKeyColon ((w1 ++ '"' :: tl) ++ X) = some (k, X) := by
  rw [parseKeyColon] at h
  rcases hsw : skipWs cs with _ | ⟨c, r0⟩
  · simp only [hsw] at h
    exact Option.noConfusion h
  · by_cases hc : c = '"'
    · subst hc
      simp only [hsw, show (('\"' : Char) = '\"') = True from by simp,
        if_true, ite_true] at h
      rcases hps : parseStrBody r0 with _ | ⟨k0, r2⟩
      · simp only [hps] at h
        exact Option.noConfusion h
      · simp only [hps] at h
        rcases hsw2 : skipWs r2 with _ | ⟨c2, r3⟩
        · simp only [hsw2] at h
          exact Option.noConfusion h
        · by_cases hc2 : c2 = ':'
          · subst hc2
            simp only [hsw2, show ((':' : Char) = ':') = True from by simp,
              if_true, ite_true, Option.some.injEq, Prod.mk.injEq] at h
            obtain ⟨hk, hr⟩ := h
            obtain ⟨w1, hw1, hwall⟩ := skipWs_decomp cs _ hsw
            obtain ⟨ps, hps1, hps2⟩ := parseStrBody_split r0 k0 r2 hps
            obtain ⟨w2, hw2, hwall2⟩ := skipWs_decomp r2 _ hsw2
            refine ⟨w1, ps ++ (w2 ++ [':']), ?_, hwall, fun X => ?_⟩
            · rw [hw1, hps1, hw2, ← hr]
              simp
            · rw [parseKeyColon]
              have e1 : (w1 ++ '"' :: (ps ++ (w2 ++ [':']))) ++ X =
                  w1 ++ '"' :: (ps ++ (w2 ++ ':' :: X)) := by simp
              rw [e1, skipWs_ws_cons w1 '"' _ hwall (by decide)]
              simp only [show (('\"' : Char) = '\"') = True from by simp,
                if_true, ite_true, hps2 (w2 ++ ':' :: X),
                skipWs_ws_cons w2 ':' X hwall2 (by decide),
                show ((':' : Char) = ':') = True from by simp, hk]
          · simp only [hsw2, eq_false hc2, if_false, ite_false] at h
            exact Option.noConfusion h
    · simp only [hsw, eq_false hc, if_false, ite_false] at h
      exact Option.noConfusion h

/-- Out of fuel: no result. -/
theorem pRun_zero (job : PJob) : pRun 0 job = none := by
  cases job <;> rfl

/-- Master lemma: a successful parse consumed a determined prefix of its
input; the prefix has the job's characteristic shape, and the parse can be
re-run with any other suffix (and any sufficient fuel), provided the suffix
cannot extend a number lexeme, yielding the same value. -/
theorem pRun_split : ∀ (f : Nat) (job : PJob) (v : Json) (r : Str),
    pRun f job = some (v, r) →
    ∃ pre, jobInput job = pre ++ r ∧ preShape job pre ∧
      ∀ (X : Str) (f2 : Nat), pre.length < f2 → numOk v X →
        pRun f2 (jobWith job (pre ++ X)) = some (v, X) := by
  intro f
  induction f with
  | zero =>
    intro job v r h
    rw [pRun_zero] at h
    exact Option.noConfusion h
  | succ f ih =>
    intro job v r h
    cases job with
    | val cs =>
      simp only [pRun] at h
      rcases hsw : skipWs cs with _ | ⟨c, r0⟩
      · simp only [hsw] at h
        exact Option.noConfusion h
      · simp only [hsw] at h
        obtain ⟨wsP, hcs, hwsP⟩ := skipWs_decomp cs _ hsw
        have hcns : isJsonWs c = false := skipWs_head_false cs c r0 hsw
        by_cases h1 : c = '{'
        · subst h1
          simp only [show (('{' : Char) = '{') = True from eq_true rfl, if_true, ite_true] at h
          rcases hsw2 : skipWs r0 with _ | ⟨c2, r2⟩
          · simp only [hsw2] at h
            exact Option.noConfusion h
          · by_cases hb2 : c2 = '}'
            · subst hb2
              simp only [hsw2, show (('}' : Char) = '}') = True from eq_true rfl,
                if_true, ite_true, Option.some.injEq, Prod.mk.injEq] at h
              obtain ⟨hv, hr⟩ := h
              obtain ⟨w2, hw2, hwall2⟩ := skipWs_decomp r0 _ hsw2
              refine ⟨wsP ++ '{' :: (w2 ++ ['}']), ?_, ?_, ?_⟩
              · rw [hcs, hw2, ← hr]
                simp [jobInput]
              · simp only [preShape]
                exact ⟨wsP, '{', w2 ++ ['}'], rfl, hwsP, by decide, by decide⟩
              · intro X f2 hlt hnum
                obtain ⟨f2p, rfl⟩ : ∃ k2, f2 = k2 + 1 := ⟨f2 - 1, by omega⟩
                simp only [jobWith]
                have e1 : (wsP ++ '{' :: (w2 ++ ['}'])) ++ X = wsP ++ '{' :: (w2 ++ '}' :: X) := by
                  simp [jobInput]
                have e2 : skipWs (wsP ++ '{' :: (w2 ++ '}' :: X)) = '{' :: (w2 ++ '}' :: X) :=
                  skipWs_ws_cons _ _ _ hwsP (by decide)
                have e3 : skipWs (w2 ++ '}' :: X) = '}' :: X :=
                  skipWs_ws_cons _ _ _ hwall2 (by decide)
                rw [e1]
                simp only [pRun, e2, e3, show (('{' : Char) = '{') = True from eq_true rfl,
                  show (('}' : Char) = '}') = True from eq_true rfl, if_true, ite_true, ← hv]
            · simp only [hsw2, eq_false hb2, if_false, ite_false] at h
              rcases hkc : parseKeyColon r0 with _ | ⟨k, r3⟩
              · simp only [hkc] at h
                exact Option.noConfusion h
              · simp only [hkc] at h
                rcases hv1 : pRun f (PJob.val r3) with _ | ⟨v1, r4⟩
                · simp only [hv1] at h
                  exact Option.noConfusion h
                · simp only [hv1] at h
                  obtain ⟨pre1, hsplit1, hshape1, hswap1⟩ := ih (PJob.val r3) v1 r4 hv1
                  obtain ⟨pre2, hsplit2, hshape2, hswap2⟩ := ih (PJob.mem [(k, v1)] r4) v r h
                  simp only [jobInput] at hsplit1 hsplit2
                  simp only [preShape] at hshape2
                  obtain ⟨cm, tlm, hpm, hcm⟩ := hshape2
                  obtain ⟨w1, tl1, hkc1, hw1all, hkcswap⟩ := parseKeyColon_split r0 k r3 hkc
                  refine ⟨wsP ++ '{' :: ((w1 ++ '"' :: tl1) ++ (pre1 ++ pre2)), ?_, ?_, ?_⟩
                  · rw [hcs, hkc1, hsplit1, hsplit2]
                    simp [jobInput]
                  · simp only [preShape]
                    exact ⟨wsP, '{', (w1 ++ '"' :: tl1) ++ (pre1 ++ pre2), rfl, hwsP,
                      by decide, by decide⟩
                  · intro X f2 hlt hnum
                    obtain ⟨f2p, rfl⟩ : ∃ k2, f2 = k2 + 1 := ⟨f2 - 1, by omega⟩
                    simp only [jobWith]
                    have hl1 : pre1.length < f2p := by
                      have hx := hlt
                      simp only [List.length_append, List.length_cons] at hx
                      omega
                    have hl2 : pre2.length < f2p := by
                      have hx := hlt
                      simp only [List.length_append, List.length_cons] at hx
                      omega
                    have e1 : (wsP ++ '{' :: ((w1 ++ '"' :: tl1) ++ (pre1 ++ pre2))) ++ X =
                        wsP ++ '{' :: ((w1 ++ '"' :: tl1) ++ (pre1 ++ (pre2 ++ X))) := by
                      simp [jobInput]
                    have e2 : skipWs (wsP ++ '{' ::
                          ((w1 ++ '"' :: tl1) ++ (pre1 ++ (pre2 ++ X)))) =
                        '{' :: ((w1 ++ '"' :: tl1) ++ (pre1 ++ (pre2 ++ X))) :=
                      skipWs_ws_cons _ _ _ hwsP (by decide)
                    have e3 : skipWs ((w1 ++ '"' :: tl1) ++ (pre1 ++ (pre2 ++ X))) =
                        '"' :: (tl1 ++ (pre1 ++ (pre2 ++ X))) := by
                      have ee : (w1 ++ '"' :: tl1) ++ (pre1 ++ (pre2 ++ X)) =
                          w1 ++ '"' :: (tl1 ++ (pre1 ++ (pre2 ++ X))) := by simp
                      rw [ee]
                      exact skipWs_ws_cons _ _ _ hw1all (by decide)
                    have e4 : parseKeyColon ((w1 ++ '"' :: tl1) ++ (pre1 ++ (pre2 ++ X))) =
                        some (k, pre1 ++ (pre2 ++ X)) := hkcswap _
                    have e5 : pRun f2p (PJob.val (pre1 ++ (pre2 ++ X))) =
                        some (v1, pre2 ++ X) := by
                      have hnm : numOk v1 (pre2 ++ X) := by
                        rw [hpm]
                        exact numOk_of_head _ _ _ hcm
                      have hh := hswap1 (pre2 ++ X) f2p hl1 hnm
                      simpa only [jobWith] using hh
                    have e6 : pRun f2p (PJob.mem [(k, v1)] (pre2 ++ X)) = some (v, X) := by
                      have hh := hswap2 X f2p hl2 hnum
                      simpa only [jobWith] using hh
                    rw [e1]
                    simp only [pRun, e2, e3, e4, e5, e6,
                      show (('{' : Char) = '{') = True from eq_true rfl,
                      show (('"' : Char) = '}') = False from eq_false (by decide),
                      if_false, ite_false, if_true, ite_true]
        · by_cases h2 : c = '['
          · subst h2
            simp only [eq_false h1, show (('[' : Char) = '[') = True from eq_true rfl,
              if_false, ite_false, if_true, ite_true] at h
            rcases hsw2 : skipWs r0 with _ | ⟨c2, r2⟩
            · simp only [hsw2] at h
              exact Option.noConfusion h
            · by_cases hb2 : c2 = ']'
              · subst hb2
                simp only [hsw2, show ((']' : Char) = ']') = True from eq_true rfl,
                  if_true, ite_true, Option.some.injEq, Prod.mk.injEq] at h
                obtain ⟨hv, hr⟩ := h
                obtain ⟨w2, hw2, hwall2⟩ := skipWs_decomp r0 _ hsw2
                refine ⟨wsP ++ '[' :: (w2 ++ [']']), ?_, ?_, ?_⟩
                · rw [hcs, hw2, ← hr]
                  simp [jobInput]
                · simp only [preShape]
                  exact ⟨wsP, '[', w2 ++ [']'], rfl, hwsP, by decide, by decide⟩
                · intro X f2 hlt hnum
                  obtain ⟨f2p, rfl⟩ : ∃ k2, f2 = k2 + 1 := ⟨f2 - 1, by omega⟩
                  simp only [jobWith]
                  have e1 : (wsP ++ '[' :: (w2 ++ [']'])) ++ X =
                      wsP ++ '[' :: (w2 ++ ']' :: X) := by simp
                  have e2 : skipWs (wsP ++ '[' :: (w2 ++ ']' :: X)) =
                      '[' :: (w2 ++ ']' :: X) := skipWs_ws_cons _ _ _ hwsP (by decide)
                  have e3 : skipWs (w2 ++ ']' :: X) = ']' :: X :=
                    skipWs_ws_cons _ _ _ hwall2 (by decide)
                  rw [e1]
                  simp only [pRun, e2, e3,
                    show (('[' : Char) = '{') = False from eq_false (by decide),
                    show (('[' : Char) = '[') = True from eq_true rfl,
                    show ((']' : Char) = ']') = True from eq_true rfl,
                    if_false, ite_false, if_true, ite_true, ← hv]
              · simp only [hsw2, eq_false hb2, if_false, ite_false] at h
                rcases hv1 : pRun f (PJob.val r0) with _ | ⟨v1, r4⟩
                · simp only [hv1] at h
                  exact Option.noConfusion h
                · simp only [hv1] at h
                  obtain ⟨pre1, hsplit1, hshape1, hswap1⟩ := ih (PJob.val r0) v1 r4 hv1
                  obtain ⟨pre2, hsplit2, hshape2, hswap2⟩ := ih (PJob.arr [v1] r4) v r h
                  simp only [jobInput] at hsplit1 hsplit2
                  simp only [preShape] at hshape1 hshape2
                  obtain ⟨wv, cV, tlv, hpv, hwv, hcv, hcvne⟩ := hshape1
                  obtain ⟨cm, tlm, hpm, hcm⟩ := hshape2
                  refine ⟨wsP ++ '[' :: (pre1 ++ pre2), ?_, ?_, ?_⟩
                  · rw [hcs, hsplit1, hsplit2]
                    simp [jobInput]
                  · simp only [preShape]
                    exact ⟨wsP, '[', pre1 ++ pre2, rfl, hwsP, by decide, by decide⟩
                  · intro X f2 hlt hnum
                    obtain ⟨f2p, rfl⟩ : ∃ k2, f2 = k2 + 1 := ⟨f2 - 1, by omega⟩
                    simp only [jobWith]
                    have hl1 : pre1.length < f2p := by
                      have hx := hlt
                      simp only [List.length_append, List.length_cons] at hx
                      omega
                    have hl2 : pre2.length < f2p := by
                      have hx := hlt
                      simp only [List.length_append, List.length_cons] at hx
                      omega
                    have e1 : (wsP ++ '[' :: (pre1 ++ pre2)) ++ X =
                        wsP ++ '[' :: (pre1 ++ (pre2 ++ X)) := by simp
                    have e2 : skipWs (wsP ++ '[' :: (pre1 ++ (pre2 ++ X))) =
                        '[' :: (pre1 ++ (pre2 ++ X)) :=
                      skipWs_ws_cons _ _ _ hwsP (by decide)
                    have e3 : skipWs (pre1 ++ (pre2 ++ X)) = cV :: (tlv ++ (pre2 ++ X)) := by
                      have ee : pre1 ++ (pre2 ++ X) = wv ++ cV :: (tlv ++ (pre2 ++ X)) := by
                        rw [hpv]
                        simp [jobInput]
                      rw [ee]
                      exact skipWs_ws_cons _ _ _ hwv hcv
                    have e5 : pRun f2p (PJob.val (pre1 ++ (pre2 ++ X))) =
                        some (v1, pre2 ++ X) := by
                      have hnm : numOk v1 (pre2 ++ X) := by
                        rw [hpm]
                        exact numOk_of_head _ _ _ hcm
                      have hh := hswap1 (pre2 ++ X) f2p hl1 hnm
                      simpa only [jobWith] using hh
                    have e6 : pRun f2p (PJob.arr [v1] (pre2 ++ X)) = some (v, X) := by
                      have hh := hswap2 X f2p hl2 hnum
                      simpa only [jobWith] using hh
                    rw [e1]
                    simp only [pRun, e2, e3, e5, e6, eq_false hcvne,
                      show (('[' : Char) = '{') = False from eq_false (by decide),
                      show (('[' : Char) = '[') = True from eq_true rfl,
                      if_false, ite_false, if_true, ite_true]
          · by_cases h3 : c = '"'
            · subst h3
              simp only [eq_false h1, eq_false h2,
                show (('"' : Char) = '"') = True from eq_true rfl,
                if_false, ite_false, if_true, ite_true] at h
              rcases hps : parseStrBody r0 with _ | ⟨sv, r2⟩
              · simp only [hps] at h
                exact Option.noConfusion h
              · simp only [hps, Option.some.injEq, Prod.mk.injEq] at h
                obtain ⟨hv, hr⟩ := h
                obtain ⟨ps, hps1, hps2⟩ := parseStrBody_split r0 sv r2 hps
                refine ⟨wsP ++ '"' :: ps, ?_, ?_, ?_⟩
                · rw [hcs, hps1, ← hr]
                  simp [jobInput]
                · simp only [preShape]
                  exact ⟨wsP, '"', ps, rfl, hwsP, by decide, by decide⟩
                · intro X f2 hlt hnum
                  obtain ⟨f2p, rfl⟩ : ∃ k2, f2 = k2 + 1 := ⟨f2 - 1, by omega⟩
                  simp only [jobWith]
                  have e1 : (wsP ++ '"' :: ps) ++ X = wsP ++ '"' :: (ps ++ X) := by simp
                  have e2 : skipWs (wsP ++ '"' :: (ps ++ X)) = '"' :: (ps ++ X) :=
                    skipWs_ws_cons _ _ _ hwsP (by decide)
                  rw [e1]
                  simp only [pRun, e2, hps2 X,
                    show (('"' : Char) = '{') = False from eq_false (by decide),
                    show (('"' : Char) = '[') = False from eq_false (by decide),
                    show (('"' : Char) = '"') = True from eq_true rfl,
                    if_false, ite_false, if_true, ite_true, ← hv]
            · by_cases h4 : c = 't'
              · subst h4
                simp only [eq_false h1, eq_false h2, eq_false h3,
                  show (('t' : Char) = 't') = True from eq_true rfl,
                  if_false, ite_false, if_true, ite_true] at h
                by_cases hb : List.isPrefixOf (chars "true") ('t' :: r0) = true
                · rw [if_pos hb] at h
                  simp only [Option.some.injEq, Prod.mk.injEq] at h
                  obtain ⟨hv, hr⟩ := h
                  obtain ⟨rest, hrest⟩ := List.isPrefixOf_iff_prefix.mp hb
                  have hdrop : List.drop 4 ('t' :: r0) = rest := by
                    rw [← hrest]
                    exact List.drop_left (chars "true") rest
                  refine ⟨wsP ++ chars "true", ?_, ?_, ?_⟩
                  · rw [hcs, ← hrest, ← hr, hdrop]
                    simp [jobInput]
                  · simp only [preShape]
                    exact ⟨wsP, 't', chars "rue", rfl, hwsP, by decide, by decide⟩
                  · intro X f2 hlt hnum
                    obtain ⟨f2p, rfl⟩ : ∃ k2, f2 = k2 + 1 := ⟨f2 - 1, by omega⟩
                    simp only [jobWith]
                    have e1 : (wsP ++ chars "true") ++ X =
                        wsP ++ 't' :: (chars "rue" ++ X) := by
                      rw [show chars "true" = 't' :: chars "rue" from rfl]
                      simp [jobInput]
                    have e2 : skipWs (wsP ++ 't' :: (chars "rue" ++ X)) =
                        't' :: (chars "rue" ++ X) := skipWs_ws_cons _ _ _ hwsP (by decide)
                    have e3 : List.isPrefixOf (chars "true") ('t' :: (chars "rue" ++ X)) =
                        true := List.isPrefixOf_iff_prefix.mpr ⟨X, rfl⟩
                    have e4 : List.drop 4 ('t' :: (chars "rue" ++ X)) = X := rfl
                    rw [e1]
                    simp only [pRun, e2, e3, e4,
                      show (('t' : Char) = '{') = False from eq_false (by decide),
                      show (('t' : Char) = '[') = False from eq_false (by decide),
                      show (('t' : Char) = '"') = False from eq_false (by decide),
                      show (('t' : Char) = 't') = True from eq_true rfl,
                      if_false, ite_false, if_true, ite_true, ← hv]
                · rw [if_neg hb] at h
                  exact Option.noConfusion h
              · by_cases h5 : c = 'f'
                · subst h5
                  simp only [eq_false h1, eq_false h2, eq_false h3, eq_false h4,
                    show (('f' : Char) = 'f') = True from eq_true rfl,
                    if_false, ite_false, if_true, ite_true] at h
                  by_cases hb : List.isPrefixOf (chars "false") ('f' :: r0) = true
                  · rw [if_pos hb] at h
                    simp only [Option.some.injEq, Prod.mk.injEq] at h
                    obtain ⟨hv, hr⟩ := h
                    obtain ⟨rest, hrest⟩ := List.isPrefixOf_iff_prefix.mp hb
                    have hdrop : List.drop 5 ('f' :: r0) = rest := by
                      rw [← hrest]
                      exact List.drop_left (chars "false") rest
                    refine ⟨wsP ++ chars "false", ?_, ?_, ?_⟩
                    · rw [hcs, ← hrest, ← hr, hdrop]
                      simp [jobInput]
                    · simp only [preShape]
                      exact ⟨wsP, 'f', chars "alse", rfl, hwsP, by decide, by decide⟩
                    · intro X f2 hlt hnum
                      obtain ⟨f2p, rfl⟩ : ∃ k2, f2 = k2 + 1 := ⟨f2 - 1, by omega⟩
                      simp only [jobWith]
                      have e1 : (wsP ++ chars "false") ++ X =
                          wsP ++ 'f' :: (chars "alse" ++ X) := by
                        rw [show chars "false" = 'f' :: chars "alse" from rfl]
                        simp [jobInput]
                      have e2 : skipWs (wsP ++ 'f' :: (chars "alse" ++ X)) =
                          'f' :: (chars "alse" ++ X) := skipWs_ws_cons _ _ _ hwsP (by decide)
                      have e3 : List.isPrefixOf (chars "false") ('f' :: (chars "alse" ++ X)) =
                          true := List.isPrefixOf_iff_prefix.mpr ⟨X, rfl⟩
                      have e4 : List.drop 5 ('f' :: (chars "alse" ++ X)) = X := rfl
                      rw [e1]
                      simp only [pRun, e2, e3, e4,
                        show (('f' : Char) = '{') = False from eq_false (by decide),
                        show (('f' : Char) = '[') = False from eq_false (by decide),
                        show (('f' : Char) = '"') = False from eq_false (by decide),
                        show (('f' : Char) = 't') = False from eq_false (by decide),
                        show (('f' : Char) = 'f') = True from eq_true rfl,
                        if_false, ite_false, if_true, ite_true, ← hv]
                  · rw [if_neg hb] at h
                    exact Option.noConfusion h
                · by_cases h6 : c = 'n'
                  · subst h6
                    simp only [eq_false h1, eq_false h2, eq_false h3, eq_false h4, eq_false h5,
                      show (('n' : Char) = 'n') = True from eq_true rfl,
                      if_false, ite_false, if_true, ite_true] at h
                    by_cases hb : List.isPrefixOf (chars "null") ('n' :: r0) = true
                    · rw [if_pos hb] at h
                      simp only [Option.some.injEq, Prod.mk.injEq] at h
                      obtain ⟨hv, hr⟩ := h
                      obtain ⟨rest, hrest⟩ := List.isPrefixOf_iff_prefix.mp hb
                      have hdrop : List.drop 4 ('n' :: r0) = rest := by
                        rw [← hrest]
                        exact List.drop_left (chars "null") rest
                      refine ⟨wsP ++ chars "null", ?_, ?_, ?_⟩
                      · rw [hcs, ← hrest, ← hr, hdrop]
                        simp [jobInput]
                      · simp only [preShape]
                        exact ⟨wsP, 'n', chars "ull", rfl, hwsP, by decide, by decide⟩
                      · intro X f2 hlt hnum
                        obtain ⟨f2p, rfl⟩ : ∃ k2, f2 = k2 + 1 := ⟨f2 - 1, by omega⟩
                        simp only [jobWith]
                        have e1 : (wsP ++ chars "null") ++ X =
                            wsP ++ 'n' :: (chars "ull" ++ X) := by
                          rw [show chars "null" = 'n' :: chars "ull" from rfl]
                          simp [jobInput]
                        have e2 : skipWs (wsP ++ 'n' :: (chars "ull" ++ X)) =
                            'n' :: (chars "ull" ++ X) := skipWs_ws_cons _ _ _ hwsP (by decide)
                        have e3 : List.isPrefixOf (chars "null") ('n' :: (chars "ull" ++ X)) =
                            true := List.isPrefixOf_iff_prefix.mpr ⟨X, rfl⟩
                        have e4 : List.drop 4 ('n' :: (chars "ull" ++ X)) = X := rfl
                        rw [e1]
                        simp only [pRun, e2, e3, e4,
                          show (('n' : Char) = '{') = False from eq_false (by decide),
                          show (('n' : Char) = '[') = False from eq_false (by decide),
                          show (('n' : Char) = '"') = False from eq_false (by decide),
                          show (('n' : Char) = 't') = False from eq_false (by decide),
                          show (('n' : Char) = 'f') = False from eq_false (by decide),
                          show (('n' : Char) = 'n') = True from eq_true rfl,
                          if_false, ite_false, if_true, ite_true, ← hv]
                    · rw [if_neg hb] at h
                      exact Option.noConfusion h
                  · simp only [eq_false h1, eq_false h2, eq_false h3, eq_false h4,
                      eq_false h5, eq_false h6, if_false, ite_false] at h
                    by_cases hemp : ((c :: r0).takeWhile isNumChar).isEmpty = true
                    · rw [if_pos hemp] at h
                      exact Option.noConfusion h
                    · rw [if_neg hemp] at h
                      by_cases hvn : validNum ((c :: r0).takeWhile isNumChar) = true
                      · rw [if_pos hvn] at h
                        simp only [Option.some.injEq, Prod.mk.injEq] at h
                        obtain ⟨hv, hr⟩ := h
                        have hnc : isNumChar c = true := by
                          by_contra hx
                          apply hemp
                          rw [List.takeWhile_cons, if_neg hx]
                          rfl
                        have hlex : (c :: r0).takeWhile isNumChar =
                            c :: r0.takeWhile isNumChar := by
                          rw [List.takeWhile_cons, if_pos hnc]
                        have hdrp : (c :: r0).dropWhile isNumChar =
                            r0.dropWhile isNumChar := by
                          rw [List.dropWhile_cons, if_pos hnc]
                        refine ⟨wsP ++ c :: r0.takeWhile isNumChar, ?_, ?_, ?_⟩
                        · rw [hcs, ← hr, hdrp]
                          conv_lhs => rw [show r0 = r0.takeWhile isNumChar ++
                            r0.dropWhile isNumChar from
                            (List.takeWhile_append_dropWhile _ _).symm]
                          simp [jobInput]
                        · simp only [preShape]
                          refine ⟨wsP, c, r0.takeWhile isNumChar, rfl, hwsP, hcns, ?_⟩
                          intro he
                          rw [he] at hnc
                          exact absurd hnc (by decide)
                        · intro X f2 hlt hnum
                          obtain ⟨f2p, rfl⟩ : ∃ k2, f2 = k2 + 1 := ⟨f2 - 1, by omega⟩
                          simp only [jobWith]
                          have hnumX : X.takeWhile isNumChar = [] ∧
                              X.dropWhile isNumChar = X := by
                            rw [← hv] at hnum
                            simp only [numOk] at hnum
                            rcases hnum with rfl | ⟨cx, csx, rfl, hcx⟩
                            · exact ⟨rfl, rfl⟩
                            · constructor
                              · rw [List.takeWhile_cons, if_neg (by simp [hcx])]
                              · rw [List.dropWhile_cons, if_neg (by simp [hcx])]
                          have halltk : ∀ e ∈ r0.takeWhile isNumChar, isNumChar e = true :=
                            fun e he => List.mem_takeWhile_imp he
                          have hvn2 : validNum (c :: r0.takeWhile isNumChar) = true := by
                            rw [← hlex]
                            exact hvn
                          have e1 : (wsP ++ c :: r0.takeWhile isNumChar) ++ X =
                              wsP ++ c :: (r0.takeWhile isNumChar ++ X) := by simp
                          have e2 : skipWs (wsP ++ c :: (r0.takeWhile isNumChar ++ X)) =
                              c :: (r0.takeWhile isNumChar ++ X) :=
                            skipWs_ws_cons _ _ _ hwsP hcns
                          have e3 : (c :: (r0.takeWhile isNumChar ++ X)).takeWhile isNumChar =
                              c :: r0.takeWhile isNumChar := by
                            rw [List.takeWhile_cons, if_pos hnc,
                              takeWhile_append_all _ _ _ halltk, hnumX.1, List.append_nil]
                          have e4 : (c :: (r0.takeWhile isNumChar ++ X)).dropWhile isNumChar =
                              X := by
                            rw [List.dropWhile_cons, if_pos hnc,
                              dropWhile_append_all _ _ _ halltk, hnumX.2]
                          rw [e1]
                          simp only [pRun, e2, e3, e4, eq_false h1, eq_false h2, eq_false h3,
                            eq_false h4, eq_false h5, eq_false h6, List.isEmpty_cons,
                            Bool.false_eq_true, eq_true hvn2,
                            if_false, ite_false, if_true, ite_true, ← hv, hlex]
                      · rw [if_neg hvn] at h
                        exact Option.noConfusion h
    | mem acc cs =>
      simp only [pRun] at h
      rcases hsw : skipWs cs with _ | ⟨c, r0⟩
      · simp only [hsw] at h
        exact Option.noConfusion h
      · simp only [hsw] at h
        obtain ⟨wsP, hcs, hwsP⟩ := skipWs_decomp cs _ hsw
        by_cases h1 : c = '}'
        · subst h1
          simp only [show (('}' : Char) = '}') = True from eq_true rfl, if_true, ite_true,
            Option.some.injEq, Prod.mk.injEq] at h
          obtain ⟨hv, hr⟩ := h
          refine ⟨wsP ++ ['}'], ?_, ?_, ?_⟩
          · rw [hcs, ← hr]
            simp [jobInput]
          · simp only [preShape]
            exact head_notNum_of_ws_block wsP '}' [] hwsP (by decide)
          · intro X f2 hlt hnum
            obtain ⟨f2p, rfl⟩ : ∃ k2, f2 = k2 + 1 := ⟨f2 - 1, by omega⟩
            simp only [jobWith]
            have e1 : (wsP ++ ['}']) ++ X = wsP ++ '}' :: X := by simp
            have e2 : skipWs (wsP ++ '}' :: X) = '}' :: X :=
              skipWs_ws_cons _ _ _ hwsP (by decide)
            rw [e1]
            simp only [pRun, e2, show (('}' : Char) = '}') = True from eq_true rfl,
              if_true, ite_true, ← hv]
        · by_cases h2 : c = ','
          · subst h2
            simp only [eq_false h1, show ((',' : Char) = ',') = True from eq_true rfl,
              if_false, ite_false, if_true, ite_true] at h
            rcases hkc : parseKeyColon r0 with _ | ⟨k, r3⟩
            · simp only [hkc] at h
              exact Option.noConfusion h
            · simp only [hkc] at h
              rcases hv1 : pRun f (PJob.val r3) with _ | ⟨v1, r4⟩
              · simp only [hv1] at h
                exact Option.noConfusion h
              · simp only [hv1] at h
                obtain ⟨pre1, hsplit1, hshape1, hswap1⟩ := ih (PJob.val r3) v1 r4 hv1
                obtain ⟨pre2, hsplit2, hshape2, hswap2⟩ :=
                  ih (PJob.mem (acc ++ [(k, v1)]) r4) v r h
                simp only [jobInput] at hsplit1 hsplit2
                simp only [preShape] at hshape2
                obtain ⟨cm, tlm, hpm, hcm⟩ := hshape2
                obtain ⟨w1, tl1, hkc1, hw1all, hkcswap⟩ := parseKeyColon_split r0 k r3 hkc
                refine ⟨wsP ++ ',' :: ((w1 ++ '"' :: tl1) ++ (pre1 ++ pre2)), ?_, ?_, ?_⟩
                · rw [hcs, hkc1, hsplit1, hsplit2]
                  simp [jobInput]
                · simp only [preShape]
                  exact head_notNum_of_ws_block wsP ',' _ hwsP (by decide)
                · intro X f2 hlt hnum
                  obtain ⟨f2p, rfl⟩ : ∃ k2, f2 = k2 + 1 := ⟨f2 - 1, by omega⟩
                  simp only [jobWith]
                  have hl1 : pre1.length < f2p := by
                    have hx := hlt
                    simp only [List.length_append, List.length_cons] at hx
                    omega
                  have hl2 : pre2.length < f2p := by
                    have hx := hlt
                    simp only [List.length_append, List.length_cons] at hx
                    omega
                  have e1 : (wsP ++ ',' :: ((w1 ++ '"' :: tl1) ++ (pre1 ++ pre2))) ++ X =
                      wsP ++ ',' :: ((w1 ++ '"' :: tl1) ++ (pre1 ++ (pre2 ++ X))) := by
                    simp [jobInput]
                  have e2 : skipWs (wsP ++ ',' ::
                        ((w1 ++ '"' :: tl1) ++ (pre1 ++ (pre2 ++ X)))) =
                      ',' :: ((w1 ++ '"' :: tl1) ++ (pre1 ++ (pre2 ++ X))) :=
                    skipWs_ws_cons _ _ _ hwsP (by decide)
                  have e4 : parseKeyColon ((w1 ++ '"' :: tl1) ++ (pre1 ++ (pre2 ++ X))) =
                      some (k, pre1 ++ (pre2 ++ X)) := hkcswap _
                  have e5 : pRun f2p (PJob.val (pre1 ++ (pre2 ++ X))) =
                      some (v1, pre2 ++ X) := by
                    have hnm : numOk v1 (pre2 ++ X) := by
                      rw [hpm]
                      exact numOk_of_head _ _ _ hcm
                    have hh := hswap1 (pre2 ++ X) f2p hl1 hnm
                    simpa only [jobWith] using hh
                  have e6 : pRun f2p (PJob.mem (acc ++ [(k, v1)]) (pre2 ++ X)) =
                      some (v, X) := by
                    have hh := hswap2 X f2p hl2 hnum
                    simpa only [jobWith] using hh
                  rw [e1]
                  simp only [pRun, e2, e4, e5, e6, eq_false h1,
                    show ((',' : Char) = ',') = True from eq_true rfl,
                    if_false, ite_false, if_true, ite_true]
          · simp only [eq_false h1, eq_false h2, if_false, ite_false] at h
            exact Option.noConfusion h
    | arr acc cs =>
      simp only [pRun] at h
      rcases hsw : skipWs cs with _ | ⟨c, r0⟩
      · simp only [hsw] at h
        exact Option.noConfusion h
      · simp only [hsw] at h
        obtain ⟨wsP, hcs, hwsP⟩ := skipWs_decomp cs _ hsw
        by_cases h1 : c = ']'
        · subst h1
          simp only [show ((']' : Char) = ']') = True from eq_true rfl, if_true, ite_true,
            Option.some.injEq, Prod.mk.injEq] at h
          obtain ⟨hv, hr⟩ := h
          refine ⟨wsP ++ [']'], ?_, ?_, ?_⟩
          · rw [hcs, ← hr]
            simp [jobInput]
          · simp only [preShape]
            exact head_notNum_of_ws_block wsP ']' [] hwsP (by decide)
          · intro X f2 hlt hnum
            obtain ⟨f2p, rfl⟩ : ∃ k2, f2 = k2 + 1 := ⟨f2 - 1, by omega⟩
            simp only [jobWith]
            have e1 : (wsP ++ [']']) ++ X = wsP ++ ']' :: X := by simp
            have e2 : skipWs (wsP ++ ']' :: X) = ']' :: X :=
              skipWs_ws_cons _ _ _ hwsP (by decide)
            rw [e1]
            simp only [pRun, e2, show ((']' : Char) = ']') = True from eq_true rfl,
              if_true, ite_true, ← hv]
        · by_cases h2 : c = ','
          · subst h2
            simp only [eq_false h1, show ((',' : Char) = ',') = True from eq_true rfl,
              if_false, ite_false, if_true, ite_true] at h
            rcases hv1 : pRun f (PJob.val r0) with _ | ⟨v1, r4⟩
            · simp only [hv1] at h
              exact Option.noConfusion h
            · simp only [hv1] at h
              obtain ⟨pre1, hsplit1, hshape1, hswap1⟩ := ih (PJob.val r0) v1 r4 hv1
              obtain ⟨pre2, hsplit2, hshape2, hswap2⟩ := ih (PJob.arr (acc ++ [v1]) r4) v r h
              simp only [jobInput] at hsplit1 hsplit2
              simp only [preShape] at hshape2
              obtain ⟨cm, tlm, hpm, hcm⟩ := hshape2
              refine ⟨wsP ++ ',' :: (pre1 ++ pre2), ?_, ?_, ?_⟩
              · rw [hcs, hsplit1, hsplit2]
                simp [jobInput]
              · simp only [preShape]
                exact head_notNum_of_ws_block wsP ',' _ hwsP (by decide)
              · intro X f2 hlt hnum
                obtain ⟨f2p, rfl⟩ : ∃ k2, f2 = k2 + 1 := ⟨f2 - 1, by omega⟩
                simp only [jobWith]
                have hl1 : pre1.length < f2p := by
                  have hx := hlt
                  simp only [List.length_append, List.length_cons] at hx
                  omega
                have hl2 : pre2.length < f2p := by
                  have hx := hlt
                  simp only [List.length_append, List.length_cons] at hx
                  omega
                have e1 : (wsP ++ ',' :: (pre1 ++ pre2)) ++ X =
                    wsP ++ ',' :: (pre1 ++ (pre2 ++ X)) := by simp
                have e2 : skipWs (wsP ++ ',' :: (pre1 ++ (pre2 ++ X))) =
                    ',' :: (pre1 ++ (pre2 ++ X)) := skipWs_ws_cons _ _ _ hwsP (by decide)
                have e5 : pRun f2p (PJob.val (pre1 ++ (pre2 ++ X))) =
                    some (v1, pre2 ++ X) := by
                  have hnm : numOk v1 (pre2 ++ X) := by
                    rw [hpm]
                    exact numOk_of_head _ _ _ hcm
                  have hh := hswap1 (pre2 ++ X) f2p hl1 hnm
                  simpa only [jobWith] using hh
                have e6 : pRun f2p (PJob.arr (acc ++ [v1]) (pre2 ++ X)) = some (v, X) := by
                  have hh := hswap2 X f2p hl2 hnum
                  simpa only [jobWith] using hh
                rw [e1]
                simp only [pRun, e2, e5, e6, eq_false h1,
                  show ((',' : Char) = ',') = True from eq_true rfl,
                  if_false, ite_false, if_true, ite_true]
          · simp only [eq_false h1, eq_false h2, if_false, ite_false] at h
            exact Option.noConfusion h

/-- A `jsonParse` success on a payload whose last character is `}` consumed
the whole payload: the parse re-runs on the payload with any appended suffix
that cannot extend a number lexeme, returning the suffix as leftover. -/
theorem jsonParse_swap (t : Str) (v : Json) (ht : jsonParse t = some v)
    (hlast : t.getLast? = some '}') :
    ∀ (X : Str) (f2 : Nat), t.length < f2 → numOk v X →
      pRun f2 (PJob.val (t ++ X)) = some (v, X) := by
  rw [jsonParse] at ht
  rcases hp : pRun (t.length + 1) (PJob.val t) with _ | ⟨v0, rest⟩
  · simp only [hp] at ht
    exact Option.noConfusion ht
  · simp only [hp] at ht
    by_cases hemp : (skipWs rest).isEmpty = true
    · rw [if_pos hemp] at ht
      have hv0 : v0 = v := Option.some.inj ht
      subst hv0
      obtain ⟨pre, hsplit, hshape, hswap⟩ := pRun_split (t.length + 1) (PJob.val t) v0 rest hp
      simp only [jobInput] at hsplit
      have hrest : rest = [] := by
        by_contra hne
        have hallws : ∀ e ∈ rest, isJsonWs e = true := by
          have hnil : skipWs rest = [] := by
            cases hq : skipWs rest with
            | nil => rfl
            | cons y ys =>
              rw [hq] at hemp
              exact absurd hemp (by simp)
          exact List.dropWhile_eq_nil_iff.mp hnil
        rcases hgl : rest.getLast? with _ | z
        · exact hne (List.getLast?_eq_none_iff.mp hgl)
        · have hlast2 : t.getLast? = some z := by
            rw [hsplit, List.getLast?_append, hgl]
            rfl
          have hz : z = '}' := by
            rw [hlast2] at hlast
            exact Option.some.inj hlast
          obtain ⟨ys, hys⟩ := exists_append_of_getLast rest z hgl
          have hmem : z ∈ rest := by
            rw [hys]
            simp
          have hwz := hallws z hmem
          rw [hz] at hwz
          exact absurd hwz (by decide)
      subst hrest
      have hpre : pre = t := by
        have := hsplit
        simpa using this.symm
      subst hpre
      intro X f2 hf2 hnum
      have hh := hswap X f2 hf2 hnum
      simpa only [jobWith] using hh
    · rw [if_neg hemp] at ht
      exact Option.noConfusion ht

/-- Appending a non-whitespace suffix to a `}`-terminated JSON payload makes
the direct `JSON.parse` fail with trailing garbage. -/
theorem jsonParse_append_none (t X : Str) (v : Json) (ht : jsonParse t = some v)
    (hlast : t.getLast? = some '}') (hX : (skipWs X).isEmpty = false)
    (hnum : numOk v X) : jsonParse (t ++ X) = none := by
  have h := jsonParse_swap t v ht hlast X ((t ++ X).length + 1)
    (by simp only [List.length_append]; omega) hnum
  rw [jsonParse, h]
  simp only [hX, Bool.false_eq_true, if_false, ite_false]

/-- C6 (amended): for a model reply `t` that is a valid JSON object payload,
delimited by its braces, and containing no occurrence of the fence marker
(three backticks), the response-parsing step yields the same parsed object
for `t` unwrapped, wrapped in a labelled code fence, and wrapped in a plain
code fence. (Without the no-fence-marker proviso the equivalence fails: see
the counterexample, where the fence-stripping `replace` corrupts an
unwrapped payload that contains the marker inside a string literal.) -/
theorem claimC6 (t : Str) (ms : List (Str × Json))
    (hfence : occursB (chars "```") t = false)
    (hparse : jsonParse t = some (Json.jobj ms))
    (hhead : t.head? = some '{') (hlast : t.getLast? = some '}') :
    processModelText (some t) = Except.ok (Json.jobj ms) ∧
    processModelText (some ((chars "```json\n" ++ t) ++ chars "\n```")) =
      Except.ok (Json.jobj ms) ∧
    processModelText (some ((chars "```\n" ++ t) ++ chars "\n```")) =
      Except.ok (Json.jobj ms) := by
  obtain ⟨t1, ht1⟩ : ∃ t1, t = '{' :: t1 := by
    cases t with
    | nil => exact absurd hhead (by simp)
    | cons c ts =>
      refine ⟨ts, ?_⟩
      have : c = '{' := by simpa using hhead
      rw [this]
  have hlen : 2 ≤ t.length := by
    rw [ht1]
    cases t1 with
    | nil =>
      rw [ht1] at hlast
      simp at hlast
    | cons c2 t2 =>
      simp only [List.length_cons]
      omega
  have hj : occursB (chars "```json") t = false :=
    occursB_false_of_prefix (chars "```") (chars "```json") t ⟨chars "json", rfl⟩ hfence
  have htrimt : trim t = t := trim_of_ends t '{' '}' hhead (by decide) hlast (by decide)
  refine ⟨?_, ?_, ?_⟩
  · simp only [processModelText]
    rw [htrimt, replaceFirst_no_occ _ _ _ hj, replaceFirst_no_occ _ _ _ hfence, htrimt]
    simp only [extractJson, hparse]
  · have e0 : trim ((chars "```json\n" ++ t) ++ chars "\n```") =
        (chars "```json\n" ++ t) ++ chars "\n```" := by
      apply trim_of_ends _ '`' '`'
      · rw [show chars "```json\n" = '`' :: chars "``json\n" from rfl]
        simp
      · decide
      · rw [show chars "\n```" = chars "\n``" ++ ['`'] from rfl, ← List.append_assoc]
        exact List.getLast?_concat _
      · decide
    have e1 : replaceFirst (chars "```json") [] ((chars "```json\n" ++ t) ++ chars "\n```") =
        '\n' :: (t ++ chars "\n```") := by
      have ee : (chars "```json\n" ++ t) ++ chars "\n```" =
          chars "```json" ++ ('\n' :: (t ++ chars "\n```")) := by
        rw [show chars "```json\n" = chars "```json" ++ ['\n'] from rfl]
        simp
      rw [ee, replaceFirst_prefix _ _ _ (by decide)]
      rfl
    have hprefix_nl : (chars "```").isPrefixOf ('\n' :: t) = false := by
      rw [show chars "```" = '`' :: chars "``" from rfl]
      simp [List.isPrefixOf]
    have hocc_nl : occursB (chars "```") ('\n' :: t) = false := by
      simp only [occursB, hprefix_nl, hfence, Bool.false_or]
    have e2 : replaceFirst (chars "```") [] ('\n' :: (t ++ chars "\n```")) =
        ('\n' :: t) ++ '\n' :: ([] : Str) := by
      have ee : '\n' :: (t ++ chars "\n```") = ('\n' :: t) ++ ('\n' :: chars "```") := by
        rw [show chars "\n```" = '\n' :: chars "```" from rfl]
        simp
      rw [ee, replaceFirst_walk _ _ _ _ (by decide) (by decide) hocc_nl,
        show replaceFirst (chars "```") [] (chars "```") = ([] : Str) from rfl]
    have e3 : trim (('\n' :: t) ++ '\n' :: ([] : Str)) = t := by
      rw [trim]
      have ee : ('\n' :: t) ++ '\n' :: ([] : Str) = ['\n'] ++ (t ++ ['\n']) := by simp
      rw [ee, trimL_append_ws _ _ (by intro c hc; simp at hc; rw [hc]; decide)]
      rw [trimL_head _ '{' (by rw [ht1]; simp) (by decide)]
      exact trimR_append_ws t ['\n'] '}'
        (by intro c hc; simp at hc; rw [hc]; decide) hlast (by decide)
    simp only [processModelText, e0, e1, e2, e3, extractJson, hparse]
  · have e0 : trim ((chars "```\n" ++ t) ++ chars "\n```") =
        (chars "```\n" ++ t) ++ chars "\n```" := by
      apply trim_of_ends _ '`' '`'
      · rw [show chars "```\n" = '`' :: chars "``\n" from rfl]
        simp
      · decide
      · rw [show chars "\n```" = chars "\n``" ++ ['`'] from rfl, ← List.append_assoc]
        exact List.getLast?_concat _
      · decide
    have ee : (chars "```\n" ++ t) ++ chars "\n```" =
        chars "```" ++ '\n' :: (t ++ '\n' :: chars "```") := by
      rw [show chars "```\n" = chars "```" ++ ['\n'] from rfl,
        show chars "\n```" = '\n' :: chars "```" from rfl]
      simp
    have e1 : replaceFirst (chars "```json") [] ((chars "```\n" ++ t) ++ chars "\n```") =
        (chars "```\n" ++ t) ++ chars "\n```" := by
      rw [ee, replaceFirst_walk _ _ _ _ (by decide) (by decide)
          (show occursB (chars "```json") (chars "```") = false from by decide),
        replaceFirst_walk _ _ _ _ (by decide) (by decide) hj,
        show replaceFirst (chars "```json") [] (chars "```") = chars "```" from rfl]
    have e2 : replaceFirst (chars "```") [] ((chars "```\n" ++ t) ++ chars "\n```") =
        '\n' :: (t ++ chars "\n```") := by
      have ee2 : (chars "```\n" ++ t) ++ chars "\n```" =
          chars "```" ++ ('\n' :: (t ++ chars "\n```")) := by
        rw [show chars "```\n" = chars "```" ++ ['\n'] from rfl]
        simp
      rw [ee2, replaceFirst_prefix _ _ _ (by decide)]
      rfl
    have e3 : trim ('\n' :: (t ++ chars "\n```")) = t ++ chars "\n```" := by
      rw [trim]
      have ee3 : '\n' :: (t ++ chars "\n```") = ['\n'] ++ (t ++ chars "\n```") := rfl
      rw [ee3, trimL_append_ws _ _ (by intro c hc; simp at hc; rw [hc]; decide)]
      rw [trimL_head _ '{' (by rw [ht1]; simp) (by decide)]
      apply trimR_last _ '`'
      · rw [show chars "\n```" = chars "\n``" ++ ['`'] from rfl, ← List.append_assoc]
        exact List.getLast?_concat _
      · decide
    have hfail : jsonParse (t ++ chars "\n```") = none := by
      apply jsonParse_append_none t _ (Json.jobj ms) hparse hlast
      · decide
      · trivial
    have hsub : extractJsonSub (t ++ chars "\n```") = some t := by
      have hh := extractJsonSub_eq [] t (chars "\n```") (by simp) (by decide)
        hhead hlast hlen
      simpa using hh
    simp only [processModelText, e0, e1, e2, e3]
    simp only [extractJson, hfail, hsub, hparse]

/-- Witness for C6: a small JSON object parses identically bare, in a
labelled fence, and in a plain fence. -/
theorem claimC6_witness :
    processModelText (some (chars "\x7b\"a\":1\x7d")) =
      Except.ok (Json.jobj [(chars "a", Json.jnum (chars "1"))]) ∧
    processModelText (some ((chars "```json\n" ++ chars "\x7b\"a\":1\x7d") ++
        chars "\n```")) =
      Except.ok (Json.jobj [(chars "a", Json.jnum (chars "1"))]) ∧
    processModelText (some ((chars "```\n" ++ chars "\x7b\"a\":1\x7d") ++
        chars "\n```")) =
      Except.ok (Json.jobj [(chars "a", Json.jnum (chars "1"))]) :=
  claimC6 (chars "\x7b\"a\":1\x7d") [(chars "a", Json.jnum (chars "1"))]
    (by decide) (by decide) (by decide) (by decide)

/-- A valid JSON object payload that contains the fence marker inside a
string literal. -/
def fenceT0 : Str := chars "\x7b\"a\":\"x```y\"\x7d"

/-- Counterexample to C6 as stated: `fenceT0` is a valid JSON object payload,
yet the parsing step yields different objects for the unwrapped reply (the
fence-stripping `replace` deletes the marker inside the string literal) and
for the plain-fence-wrapped reply (the stripping hits the fence and the
payload survives via the brace-extraction fallback). -/
theorem claimC6_counterexample :
    jsonParse fenceT0 = some (Json.jobj [(chars "a", Json.jstr (chars "x```y"))]) ∧
    processModelText (some fenceT0) =
      Except.ok (Json.jobj [(chars "a", Json.jstr (chars "xy"))]) ∧
    processModelText (some ((chars "```\n" ++ fenceT0) ++ chars "\n```")) =
      Except.ok (Json.jobj [(chars "a", Json.jstr (chars "x```y"))]) ∧
    Json.jstr (chars "xy") ≠ Json.jstr (chars "x```y") := by
  exact ⟨by decide, rfl, rfl, by decide⟩

end AdGen
